import Mathlib

/-!
Bisection driver `solver_nfw` (redmapper, `solver_nfw/solver_nfw.c`).

A shallow embedding of the C function `solver_nfw` and theorems about it.

Conventions of the embedding.

* In the first embedding `double` is modelled by `ℚ`: its statements are about exact
  arithmetic (the literal `0.9` is the rational `9/10`, `fabs` is the absolute value).
* A second embedding, whose names end in `D`, follows the same lines of the source in
  IEEE-754 binary64 arithmetic (`Dbl`, `roundDouble`): every operation rounds and values can
  be infinite or NaN.  It is used to evaluate runs on which rounding or NaN decides.
* `nfw_weights` is only declared in `solver_nfw.h`; its body is not part of the
  translation unit.  It is taken as a parameter (`Evaluator`) with the argument
  list of the C call.  It receives the current contents of `p`, `wt` and `rc`
  and returns their new contents.
* The `while` loop is run with a fuel bound: `none` means that the loop was
  still running when the fuel ran out.
* `rc` is an uninitialised local of the C function; its indeterminate start
  value is the extra parameter `rc0`.
* The fields `calls` and `iters` of `State` are ghost fields: they record the
  evaluator calls and count the executions of the loop body; the code never
  reads them.
-/

namespace SolverNfw

/-- The memory an evaluator call may write: the caller's arrays `p` and `wt`
and the local `rc` (passed as `&rc`). -/
structure Bufs where
  p : List ℚ
  wt : List ℚ
  rc : ℚ
deriving DecidableEq

/-- The external `nfw_weights(lam, r0, beta, ngal, ucounts, bcounts, r, w, p, wt, &rc, rsig)`:
the three written locations `p`, `wt`, `rc` are grouped in `Bufs`. -/
abbrev Evaluator :=
  (lam r0 beta : ℚ) → (ngal : ℤ) → (ucounts bcounts r w : List ℚ) → Bufs → (rsig : ℚ) → Bufs

/-- The arguments of `solver_nfw`, in the order of the C parameter list
(`lambda` is write-only and appears in `Result`). -/
structure Args where
  r0 : ℚ
  beta : ℚ
  ngal : ℤ
  ucounts : List ℚ
  bcounts : List ℚ
  r : List ℚ
  w : List ℚ
  p : List ℚ
  wt : List ℚ
  tol : ℚ
  cpars : List ℚ
  rsig : ℚ

/-- The live variables of `solver_nfw` at the head of the `while` loop,
with the ghost fields `calls` (trial value and output of every evaluator call,
oldest first) and `iters` (number of executions of the loop body). -/
structure State where
  lamlo : ℚ
  lamhi : ℚ
  outlo : ℚ
  bufs : Bufs
  calls : List (ℚ × Bufs)
  iters : ℕ
deriving DecidableEq

/-- What `solver_nfw` leaves behind: the return value, `*lambda`, the arrays
`p` and `wt`, and (ghost) the state in which the loop was left. -/
structure Result where
  ret : ℤ
  lambda : ℚ
  p : List ℚ
  wt : List ℚ
  final : State

/-- The accumulation `acc = 0.0; for (i=0;i<ngal;i++) acc += wt[i];`. -/
def sumwt (ngal : ℤ) (wt : List ℚ) : ℚ :=
  (List.range ngal.toNat).foldl (fun acc i => acc + wt.getD i 0) 0

/-- The cubic `cval = cpars[0] + cpars[1]*rc + cpars[2]*rc*rc + cpars[3]*rc*rc*rc`. -/
def cval (cpars : List ℚ) (rc : ℚ) : ℚ :=
  cpars.getD 0 0 + cpars.getD 1 0 * rc + cpars.getD 2 0 * rc * rc
    + cpars.getD 3 0 * rc * rc * rc

/-- The objective computed after an evaluator call at trial value `x`
(lines 25-32 for `outlo`, lines 35-42 for `outmid`): the sum of the weights
plus `x * cval`. -/
def objective (a : Args) (x : ℚ) (b : Bufs) : ℚ :=
  sumwt a.ngal b.wt + x * cval a.cpars b.rc

/-- One call `nfw_weights(lam,r0,beta,ngal,ucounts,bcounts,r,w,p,wt,&rc,rsig)`. -/
def call (nfw_weights : Evaluator) (a : Args) (lam : ℚ) (b : Bufs) : Bufs :=
  nfw_weights lam a.r0 a.beta a.ngal a.ucounts a.bcounts a.r a.w b a.rsig

/-- Lines 23-33: `if (outlo < 0.0) { nfw_weights(lamlo,...); outlo = ...; }`. -/
def lowEnd (nfw_weights : Evaluator) (a : Args) (s : State) : State :=
  if s.outlo < 0 then
    let b := call nfw_weights a s.lamlo s.bufs
    { s with outlo := objective a s.lamlo b, bufs := b, calls := s.calls ++ [(s.lamlo, b)] }
  else s

/-- Line 34: `nfw_weights(mid,...)`. -/
def midEval (nfw_weights : Evaluator) (a : Args) (mid : ℚ) (s : State) : State :=
  let b := call nfw_weights a mid s.bufs
  { s with bufs := b, calls := s.calls ++ [(mid, b)] }

/-- Line 44: `if (outlo < 1.0) { outlo = 0.9; }`. -/
def clamp (outlo : ℚ) : ℚ := if outlo < 1 then 9 / 10 else outlo

/-- The value of `mid` assigned at line 22. -/
def midpoint (s : State) : ℚ := (s.lamhi + s.lamlo) / 2

/-- The value of `outlo` in the sign test (line 45) of the iteration that starts in `s`. -/
def testOutlo (nfw_weights : Evaluator) (a : Args) (s : State) : ℚ :=
  clamp (lowEnd nfw_weights a s).outlo

/-- The value of `outmid` in the sign test (line 45) of the iteration that starts in `s`. -/
def testOutmid (nfw_weights : Evaluator) (a : Args) (s : State) : ℚ :=
  objective a (midpoint s) (midEval nfw_weights a (midpoint s) (lowEnd nfw_weights a s)).bufs

/-- The sign test of line 45, `(outlo-lamlo)*(outmid-mid) > 0.0`, in the iteration that
starts in `s`. -/
abbrev signTest (nfw_weights : Evaluator) (a : Args) (s : State) : Prop :=
  (testOutlo nfw_weights a s - s.lamlo) * (testOutmid nfw_weights a s - midpoint s) > 0

/-- The loop body, lines 22-50. -/
def body (nfw_weights : Evaluator) (a : Args) (s : State) : State :=
  let mid := midpoint s
  let s2 := midEval nfw_weights a mid (lowEnd nfw_weights a s)
  let outmid := objective a mid s2.bufs
  let outlo := clamp s2.outlo
  if (outlo - s2.lamlo) * (outmid - mid) > 0 then
    { s2 with lamlo := mid, outlo := -1, iters := s2.iters + 1 }
  else
    { s2 with lamhi := mid, outlo := outlo, iters := s2.iters + 1 }

/-- The loop condition, line 21: `fabs(lamhi-lamlo) > 2*tol`. -/
abbrev loopCond (a : Args) (s : State) : Prop := |s.lamhi - s.lamlo| > 2 * a.tol

/-- The state at line 21 on entry: `lamlo=0.5; lamhi=2000.0; outlo=-1.0;`,
the caller's `p` and `wt`, nothing called yet. -/
def initState (a : Args) (rc0 : ℚ) : State :=
  { lamlo := 1 / 2, lamhi := 2000, outlo := -1,
    bufs := { p := a.p, wt := a.wt, rc := rc0 }, calls := [], iters := 0 }

/-- The `while` loop of lines 21-51 with a fuel bound on the number of
executions of the body. -/
def loop (nfw_weights : Evaluator) (a : Args) : ℕ → State → Option State
  | 0, s => if loopCond a s then none else some s
  | fuel + 1, s => if loopCond a s then loop nfw_weights a fuel (body nfw_weights a s) else some s

/-- Lines 53-57: `*lambda = (lamlo+lamhi)/2.0; if (*lambda < 1.0) *lambda = -1.0;`. -/
def storeLambda (s : State) : ℚ :=
  let lam := (s.lamlo + s.lamhi) / 2
  if lam < 1 then -1 else lam

/-- The function `solver_nfw`, lines 8-60. -/
def solver_nfw (nfw_weights : Evaluator) (a : Args) (rc0 : ℚ) (fuel : ℕ) : Option Result :=
  match loop nfw_weights a fuel (initState a rc0) with
  | none => none
  | some s => some { ret := 0, lambda := storeLambda s, p := s.bufs.p, wt := s.bufs.wt, final := s }

/-- The state after `n` executions of the loop body from the entry state. -/
def iter (nfw_weights : Evaluator) (a : Args) (rc0 : ℚ) (n : ℕ) : State :=
  (body nfw_weights a)^[n] (initState a rc0)

/-- An evaluator is pure when its output does not depend on what `p`, `wt`
and `rc` hold when it is called. -/
def PureEvaluator (nfw_weights : Evaluator) : Prop :=
  ∀ (lam r0 beta : ℚ) (ngal : ℤ) (ucounts bcounts r w : List ℚ) (b b' : Bufs) (rsig : ℚ),
    nfw_weights lam r0 beta ngal ucounts bcounts r w b rsig
      = nfw_weights lam r0 beta ngal ucounts bcounts r w b' rsig

/-- What a pure evaluator writes at trial value `x`: for a pure evaluator the buffers
passed to the call are irrelevant, so fixed ones are passed here. -/
def evalAt (nfw_weights : Evaluator) (a : Args) (x : ℚ) : Bufs :=
  call nfw_weights a x { p := [], wt := [], rc := 0 }

/-- The objective `F(x) = sum(wt) + x*C(rc)` of a pure evaluator at trial value `x`. -/
def objectiveAt (nfw_weights : Evaluator) (a : Args) (x : ℚ) : ℚ :=
  objective a x (evalAt nfw_weights a x)

/-- An evaluator that ignores its arguments and always writes the same `p`, `wt`, `rc`. -/
def constWeights (p wt : List ℚ) (rc : ℚ) : Evaluator :=
  fun _ _ _ _ _ _ _ _ _ _ => { p := p, wt := wt, rc := rc }

/-- A sample of one galaxy with a zero background polynomial. -/
def oneGalaxy (tol : ℚ) : Args :=
  { r0 := 1, beta := 1, ngal := 1, ucounts := [1], bcounts := [1], r := [1], w := [1],
    p := [0], wt := [0], tol := tol, cpars := [0, 0, 0, 0], rsig := 1 }

/-- The empty sample with a zero background polynomial. -/
def noGalaxy (tol : ℚ) : Args :=
  { r0 := 1, beta := 1, ngal := 0, ucounts := [], bcounts := [], r := [], w := [],
    p := [], wt := [], tol := tol, cpars := [0, 0, 0, 0], rsig := 1 }

/-! ## The same function in double arithmetic

The definitions below embed `solver_nfw` a second time, with IEEE-754 binary64 arithmetic in
place of exact arithmetic: every `+`, `-`, `*`, `/` rounds to the nearest double (ties to
even), and a value can be an infinity or NaN.  Signed zeros are identified and fused
multiply-add contraction is not modelled.  The names end in `D`. -/

/-- An IEEE-754 binary64 value: a finite number, an infinity (`negative` is its sign) or NaN. -/
inductive Dbl where
  | fin (q : ℚ)
  | inf (negative : Bool)
  | nan
deriving DecidableEq

/-- The number of halvings that bring `n` below `2`, at most `fuel` of them. -/
def halvings : ℕ → ℕ → ℕ
  | 0, _ => 0
  | fuel + 1, n => if n < 2 then 0 else halvings fuel (n / 2) + 1

/-- The integer `floor (log2 n)` for `n ≥ 1`. -/
def natLog2 (n : ℕ) : ℕ := halvings n n

/-- The integer `floor (log2 |x|)` for `x ≠ 0`. -/
def ilog2 (x : ℚ) : ℤ :=
  let e : ℤ := (natLog2 x.num.natAbs : ℤ) - (natLog2 x.den : ℤ)
  if (2 : ℚ) ^ e ≤ |x| then e else e - 1

/-- Rounding to the nearest integer, ties to the even one. -/
def roundHalfEven (x : ℚ) : ℤ :=
  let f : ℤ := Rat.floor x
  if x - f < 1 / 2 then f
  else if 1 / 2 < x - f then f + 1
  else if f % 2 = 0 then f else f + 1

/-- Rounding of an exact result to binary64, round-to-nearest-even: 53 significant bits,
exponents from `-1022` (below it the spacing stays `2^-1074`), overflow to infinity. -/
def roundDouble (x : ℚ) : Dbl :=
  if x = 0 then Dbl.fin 0
  else
    let e : ℤ := max (ilog2 x) (-1022)
    let ulp : ℚ := 2 ^ (e - 52)
    let y : ℚ := (roundHalfEven (x / ulp) : ℚ) * ulp
    if |y| < 2 ^ 1024 then Dbl.fin y else Dbl.inf (decide (x < 0))

/-- Unary minus. -/
def Dbl.neg : Dbl → Dbl
  | Dbl.fin a => Dbl.fin (-a)
  | Dbl.inf s => Dbl.inf (!s)
  | Dbl.nan => Dbl.nan

/-- The C operator `+` on doubles. -/
def Dbl.add : Dbl → Dbl → Dbl
  | Dbl.fin a, Dbl.fin b => roundDouble (a + b)
  | Dbl.nan, _ => Dbl.nan
  | _, Dbl.nan => Dbl.nan
  | Dbl.inf s, Dbl.inf t => if s = t then Dbl.inf s else Dbl.nan
  | Dbl.inf s, Dbl.fin _ => Dbl.inf s
  | Dbl.fin _, Dbl.inf t => Dbl.inf t

/-- The C operator `-` on doubles. -/
def Dbl.sub (x y : Dbl) : Dbl := Dbl.add x (Dbl.neg y)

/-- The C operator `*` on doubles. -/
def Dbl.mul : Dbl → Dbl → Dbl
  | Dbl.fin a, Dbl.fin b => roundDouble (a * b)
  | Dbl.nan, _ => Dbl.nan
  | _, Dbl.nan => Dbl.nan
  | Dbl.inf s, Dbl.inf t => Dbl.inf (s != t)
  | Dbl.inf s, Dbl.fin b => if b = 0 then Dbl.nan else Dbl.inf (s != decide (b < 0))
  | Dbl.fin a, Dbl.inf t => if a = 0 then Dbl.nan else Dbl.inf (t != decide (a < 0))

/-- Division by the literal `2.0`. -/
def Dbl.half : Dbl → Dbl
  | Dbl.fin a => roundDouble (a / 2)
  | Dbl.inf s => Dbl.inf s
  | Dbl.nan => Dbl.nan

/-- The library function `fabs`. -/
def Dbl.fabs : Dbl → Dbl
  | Dbl.fin a => Dbl.fin |a|
  | Dbl.inf _ => Dbl.inf false
  | Dbl.nan => Dbl.nan

/-- The C comparison `x < y` on doubles: false as soon as one side is NaN. -/
def Dbl.lt : Dbl → Dbl → Bool
  | Dbl.fin a, Dbl.fin b => decide (a < b)
  | Dbl.nan, _ => false
  | _, Dbl.nan => false
  | Dbl.inf s, Dbl.inf t => s && !t
  | Dbl.inf s, Dbl.fin _ => s
  | Dbl.fin _, Dbl.inf t => !t

/-- The memory an evaluator call may write, in doubles. -/
structure BufsD where
  p : List Dbl
  wt : List Dbl
  rc : Dbl
deriving DecidableEq

/-- The external `nfw_weights`, in doubles. -/
abbrev EvaluatorD :=
  (lam r0 beta : Dbl) → (ngal : ℤ) → (ucounts bcounts r w : List Dbl) → BufsD → (rsig : Dbl)
    → BufsD

/-- The arguments of `solver_nfw`, in doubles. -/
structure ArgsD where
  r0 : Dbl
  beta : Dbl
  ngal : ℤ
  ucounts : List Dbl
  bcounts : List Dbl
  r : List Dbl
  w : List Dbl
  p : List Dbl
  wt : List Dbl
  tol : Dbl
  cpars : List Dbl
  rsig : Dbl

/-- The live variables at the head of the loop, in doubles, with the ghost fields `calls`
and `iters`. -/
structure StateD where
  lamlo : Dbl
  lamhi : Dbl
  outlo : Dbl
  bufs : BufsD
  calls : List (Dbl × BufsD)
  iters : ℕ
deriving DecidableEq

/-- What `solver_nfw` leaves behind, in doubles. -/
structure ResultD where
  ret : ℤ
  lambda : Dbl
  p : List Dbl
  wt : List Dbl
  final : StateD
deriving DecidableEq

/-- The accumulation `acc = 0.0; for (i=0;i<ngal;i++) acc += wt[i];` in doubles. -/
def sumwtD (ngal : ℤ) (wt : List Dbl) : Dbl :=
  (List.range ngal.toNat).foldl (fun acc i => Dbl.add acc (wt.getD i (Dbl.fin 0))) (Dbl.fin 0)

/-- The cubic `cpars[0] + cpars[1]*rc + cpars[2]*rc*rc + cpars[3]*rc*rc*rc` in doubles. -/
def cvalD (cpars : List Dbl) (rc : Dbl) : Dbl :=
  Dbl.add
    (Dbl.add
      (Dbl.add (cpars.getD 0 (Dbl.fin 0)) (Dbl.mul (cpars.getD 1 (Dbl.fin 0)) rc))
      (Dbl.mul (Dbl.mul (cpars.getD 2 (Dbl.fin 0)) rc) rc))
    (Dbl.mul (Dbl.mul (Dbl.mul (cpars.getD 3 (Dbl.fin 0)) rc) rc) rc)

/-- The objective after an evaluator call at trial value `x`, in doubles. -/
def objectiveD (a : ArgsD) (x : Dbl) (b : BufsD) : Dbl :=
  Dbl.add (sumwtD a.ngal b.wt) (Dbl.mul x (cvalD a.cpars b.rc))

/-- One call of `nfw_weights`, in doubles. -/
def callD (nfw_weights : EvaluatorD) (a : ArgsD) (lam : Dbl) (b : BufsD) : BufsD :=
  nfw_weights lam a.r0 a.beta a.ngal a.ucounts a.bcounts a.r a.w b a.rsig

/-- Lines 23-33 in doubles. -/
def lowEndD (nfw_weights : EvaluatorD) (a : ArgsD) (s : StateD) : StateD :=
  if Dbl.lt s.outlo (Dbl.fin 0) then
    let b := callD nfw_weights a s.lamlo s.bufs
    { s with outlo := objectiveD a s.lamlo b, bufs := b, calls := s.calls ++ [(s.lamlo, b)] }
  else s

/-- Line 34 in doubles. -/
def midEvalD (nfw_weights : EvaluatorD) (a : ArgsD) (mid : Dbl) (s : StateD) : StateD :=
  let b := callD nfw_weights a mid s.bufs
  { s with bufs := b, calls := s.calls ++ [(mid, b)] }

/-- Line 44 in doubles: `if (outlo < 1.0) { outlo = 0.9; }`; the literal `0.9` is the double
nearest to `9/10`, and a NaN passes unchanged. -/
def clampD (outlo : Dbl) : Dbl :=
  if Dbl.lt outlo (Dbl.fin 1) then roundDouble (9 / 10) else outlo

/-- Line 22 in doubles: `mid=(lamhi+lamlo)/2.0`. -/
def midpointD (s : StateD) : Dbl := Dbl.half (Dbl.add s.lamhi s.lamlo)

/-- The loop body, lines 22-50, in doubles. -/
def bodyD (nfw_weights : EvaluatorD) (a : ArgsD) (s : StateD) : StateD :=
  let mid := midpointD s
  let s2 := midEvalD nfw_weights a mid (lowEndD nfw_weights a s)
  let outmid := objectiveD a mid s2.bufs
  let outlo := clampD s2.outlo
  if Dbl.lt (Dbl.fin 0) (Dbl.mul (Dbl.sub outlo s2.lamlo) (Dbl.sub outmid mid)) then
    { s2 with lamlo := mid, outlo := Dbl.fin (-1), iters := s2.iters + 1 }
  else
    { s2 with lamhi := mid, outlo := outlo, iters := s2.iters + 1 }

/-- The loop condition, line 21, in doubles: `fabs(lamhi-lamlo) > 2*tol`. -/
def loopCondD (a : ArgsD) (s : StateD) : Bool :=
  Dbl.lt (Dbl.mul (Dbl.fin 2) a.tol) (Dbl.fabs (Dbl.sub s.lamhi s.lamlo))

/-- The state on entry, in doubles. -/
def initStateD (a : ArgsD) (rc0 : Dbl) : StateD :=
  { lamlo := Dbl.fin (1 / 2), lamhi := Dbl.fin 2000, outlo := Dbl.fin (-1),
    bufs := { p := a.p, wt := a.wt, rc := rc0 }, calls := [], iters := 0 }

/-- The `while` loop with a fuel bound, in doubles. -/
def loopD (nfw_weights : EvaluatorD) (a : ArgsD) : ℕ → StateD → Option StateD
  | 0, s => if loopCondD a s then none else some s
  | fuel + 1, s =>
    if loopCondD a s then loopD nfw_weights a fuel (bodyD nfw_weights a s) else some s

/-- Lines 53-57 in doubles. -/
def storeLambdaD (s : StateD) : Dbl :=
  let lam := Dbl.half (Dbl.add s.lamlo s.lamhi)
  if Dbl.lt lam (Dbl.fin 1) then Dbl.fin (-1) else lam

/-- The function `solver_nfw` in doubles. -/
def solver_nfwD (nfw_weights : EvaluatorD) (a : ArgsD) (rc0 : Dbl) (fuel : ℕ) :
    Option ResultD :=
  match loopD nfw_weights a fuel (initStateD a rc0) with
  | none => none
  | some s =>
    some { ret := 0, lambda := storeLambdaD s, p := s.bufs.p, wt := s.bufs.wt, final := s }

/-- An evaluator in doubles that always writes the same `p`, `wt`, `rc`. -/
def constWeightsD (p wt : List Dbl) (rc : Dbl) : EvaluatorD :=
  fun _ _ _ _ _ _ _ _ _ _ => { p := p, wt := wt, rc := rc }

/-- The empty sample with a zero background polynomial, in doubles. -/
def noGalaxyD (tol : ℚ) : ArgsD :=
  { r0 := Dbl.fin 1, beta := Dbl.fin 1, ngal := 0, ucounts := [], bcounts := [], r := [],
    w := [], p := [], wt := [], tol := Dbl.fin tol,
    cpars := [Dbl.fin 0, Dbl.fin 0, Dbl.fin 0, Dbl.fin 0], rsig := Dbl.fin 1 }

/-! ## The loop body and the bracket -/

theorem lowEnd_lamlo (ev : Evaluator) (a : Args) (s : State) :
    (lowEnd ev a s).lamlo = s.lamlo := by
  unfold lowEnd; split <;> rfl

theorem lowEnd_lamhi (ev : Evaluator) (a : Args) (s : State) :
    (lowEnd ev a s).lamhi = s.lamhi := by
  unfold lowEnd; split <;> rfl

theorem lowEnd_iters (ev : Evaluator) (a : Args) (s : State) :
    (lowEnd ev a s).iters = s.iters := by
  unfold lowEnd; split <;> rfl

theorem lowEnd_of_neg (ev : Evaluator) (a : Args) (s : State) (h : s.outlo < 0) :
    lowEnd ev a s =
      { s with outlo := objective a s.lamlo (call ev a s.lamlo s.bufs),
               bufs := call ev a s.lamlo s.bufs,
               calls := s.calls ++ [(s.lamlo, call ev a s.lamlo s.bufs)] } := by
  unfold lowEnd; rw [if_pos h]

theorem lowEnd_of_not_neg (ev : Evaluator) (a : Args) (s : State) (h : ¬ s.outlo < 0) :
    lowEnd ev a s = s := by
  unfold lowEnd; rw [if_neg h]

/-- The loop body written with the values that enter the sign test. -/
theorem body_eq (ev : Evaluator) (a : Args) (s : State) :
    body ev a s =
      if signTest ev a s then
        { midEval ev a (midpoint s) (lowEnd ev a s) with
          lamlo := midpoint s, outlo := -1, iters := s.iters + 1 }
      else
        { midEval ev a (midpoint s) (lowEnd ev a s) with
          lamhi := midpoint s, outlo := testOutlo ev a s, iters := s.iters + 1 } := by
  unfold body signTest testOutlo testOutmid
  simp only [midEval, lowEnd_lamlo, lowEnd_iters]

theorem body_lamlo (ev : Evaluator) (a : Args) (s : State) :
    (body ev a s).lamlo = if signTest ev a s then midpoint s else s.lamlo := by
  rw [body_eq]; split <;> simp [midEval, lowEnd_lamlo]

theorem body_lamhi (ev : Evaluator) (a : Args) (s : State) :
    (body ev a s).lamhi = if signTest ev a s then s.lamhi else midpoint s := by
  rw [body_eq]; split <;> simp [midEval, lowEnd_lamhi]

theorem body_outlo (ev : Evaluator) (a : Args) (s : State) :
    (body ev a s).outlo = if signTest ev a s then -1 else testOutlo ev a s := by
  rw [body_eq]; split <;> rfl

theorem body_bufs (ev : Evaluator) (a : Args) (s : State) :
    (body ev a s).bufs = call ev a (midpoint s) (lowEnd ev a s).bufs := by
  rw [body_eq]; split <;> rfl

theorem body_calls (ev : Evaluator) (a : Args) (s : State) :
    (body ev a s).calls = (lowEnd ev a s).calls ++ [(midpoint s, (body ev a s).bufs)] := by
  rw [body_eq]; split <;> rfl

/-- The loop body keeps one end of the bracket and moves the other to `mid`. -/
theorem body_bracket (ev : Evaluator) (a : Args) (s : State) :
    ((body ev a s).lamlo = midpoint s ∧ (body ev a s).lamhi = s.lamhi) ∨
      ((body ev a s).lamlo = s.lamlo ∧ (body ev a s).lamhi = midpoint s) := by
  unfold body
  simp only []
  split
  · left; exact ⟨rfl, by simp [midEval, lowEnd_lamhi]⟩
  · right; exact ⟨by simp [midEval, lowEnd_lamlo], rfl⟩

theorem body_width (ev : Evaluator) (a : Args) (s : State) :
    (body ev a s).lamhi - (body ev a s).lamlo = (s.lamhi - s.lamlo) / 2 := by
  rcases body_bracket ev a s with ⟨h1, h2⟩ | ⟨h1, h2⟩ <;> rw [h1, h2] <;> unfold midpoint <;> ring

theorem body_iters (ev : Evaluator) (a : Args) (s : State) :
    (body ev a s).iters = s.iters + 1 := by
  unfold body
  simp only []
  split <;> simp [midEval, lowEnd_iters]

theorem iter_zero (ev : Evaluator) (a : Args) (rc0 : ℚ) :
    iter ev a rc0 0 = initState a rc0 := rfl

theorem iter_succ (ev : Evaluator) (a : Args) (rc0 : ℚ) (n : ℕ) :
    iter ev a rc0 (n + 1) = body ev a (iter ev a rc0 n) := by
  unfold iter; exact Function.iterate_succ_apply' _ _ _

theorem iter_width (ev : Evaluator) (a : Args) (rc0 : ℚ) (n : ℕ) :
    (iter ev a rc0 n).lamhi - (iter ev a rc0 n).lamlo = (3999 / 2) / 2 ^ n := by
  induction n with
  | zero => rw [iter_zero]; norm_num [initState]
  | succ k ih => rw [iter_succ, body_width, ih, pow_succ]; field_simp; ring

theorem iter_iters (ev : Evaluator) (a : Args) (rc0 : ℚ) (n : ℕ) :
    (iter ev a rc0 n).iters = n := by
  induction n with
  | zero => rfl
  | succ k ih => rw [iter_succ, body_iters, ih]

theorem iter_width_pos (ev : Evaluator) (a : Args) (rc0 : ℚ) (n : ℕ) :
    0 < (iter ev a rc0 n).lamhi - (iter ev a rc0 n).lamlo := by
  rw [iter_width]; positivity

/-- A property of the entry state that the loop body preserves holds after any number of
executions of the body. -/
theorem iter_induction (ev : Evaluator) (a : Args) (rc0 : ℚ) (P : State → Prop)
    (h0 : P (initState a rc0)) (hstep : ∀ s, P s → P (body ev a s)) (n : ℕ) :
    P (iter ev a rc0 n) := by
  induction n with
  | zero => exact h0
  | succ k ih => rw [iter_succ]; exact hstep _ ih

/-- At the states the loop reaches, the loop condition is `1999.5 / 2^n > 2*tol`. -/
theorem loopCond_iter (ev : Evaluator) (a : Args) (rc0 : ℚ) (n : ℕ) :
    loopCond a (iter ev a rc0 n) ↔ (3999 / 2 : ℚ) / 2 ^ n > 2 * a.tol := by
  unfold loopCond
  rw [abs_of_pos (iter_width_pos ev a rc0 n), iter_width]

/-! ## The fuelled loop and the iterates of the body -/

theorem loop_of_stop (ev : Evaluator) (a : Args) (n : ℕ) :
    ∀ (s : State), ¬ loopCond a ((body ev a)^[n] s) →
      (∀ k, k < n → loopCond a ((body ev a)^[k] s)) →
      ∀ fuel, n ≤ fuel → loop ev a fuel s = some ((body ev a)^[n] s) := by
  induction n with
  | zero =>
    intro s hstop _ fuel _
    simp only [Function.iterate_zero, id_eq] at hstop ⊢
    cases fuel <;> simp [loop, hstop]
  | succ m ih =>
    intro s hstop hrun fuel hle
    have h0 : loopCond a s := hrun 0 (Nat.succ_pos m)
    obtain ⟨f, rfl⟩ : ∃ f, fuel = f + 1 := ⟨fuel - 1, by omega⟩
    simp only [loop, h0, if_true]
    rw [Function.iterate_succ_apply] at hstop ⊢
    refine ih (body ev a s) hstop (fun k hk => ?_) f (by omega)
    have := hrun (k + 1) (by omega)
    rwa [Function.iterate_succ_apply] at this

theorem loop_some_inv (ev : Evaluator) (a : Args) (fuel : ℕ) :
    ∀ (s s' : State), loop ev a fuel s = some s' →
      ∃ n, n ≤ fuel ∧ s' = (body ev a)^[n] s ∧ ¬ loopCond a s' ∧
        ∀ k, k < n → loopCond a ((body ev a)^[k] s) := by
  induction fuel with
  | zero =>
    intro s s' h
    by_cases hc : loopCond a s
    · simp [loop, hc] at h
    · simp only [loop, hc, if_false, Option.some.injEq] at h
      subst h
      exact ⟨0, le_refl _, rfl, hc, fun k hk => absurd hk (Nat.not_lt_zero k)⟩
  | succ f ih =>
    intro s s' h
    by_cases hc : loopCond a s
    · simp only [loop, hc, if_true] at h
      obtain ⟨n, hn, hs, hstop, hrun⟩ := ih _ _ h
      refine ⟨n + 1, by omega, by rw [Function.iterate_succ_apply]; exact hs, hstop, ?_⟩
      intro k hk
      cases k with
      | zero => exact hc
      | succ j => rw [Function.iterate_succ_apply]; exact hrun j (by omega)
    · simp only [loop, hc, if_false, Option.some.injEq] at h
      subst h
      exact ⟨0, Nat.zero_le _, rfl, hc, fun k hk => absurd hk (Nat.not_lt_zero k)⟩

theorem loop_none_of_run (ev : Evaluator) (a : Args) (fuel : ℕ) :
    ∀ (s : State), (∀ k, k ≤ fuel → loopCond a ((body ev a)^[k] s)) →
      loop ev a fuel s = none := by
  induction fuel with
  | zero =>
    intro s h
    have := h 0 (le_refl _)
    simp only [Function.iterate_zero, id_eq] at this
    simp [loop, this]
  | succ f ih =>
    intro s h
    have h0 := h 0 (Nat.zero_le _)
    simp only [Function.iterate_zero, id_eq] at h0
    simp only [loop, h0, if_true]
    refine ih _ (fun k hk => ?_)
    have := h (k + 1) (by omega)
    rwa [Function.iterate_succ_apply] at this

/-! ## Termination for a positive tolerance -/

/-- For `tol > 0` some power of two brings the width `1999.5 / 2^n` down to `2*tol`. -/
theorem exists_width_le (tol : ℚ) (htol : 0 < tol) :
    ∃ n : ℕ, ¬ ((3999 / 2 : ℚ) / 2 ^ n > 2 * tol) := by
  obtain ⟨n, hn⟩ := pow_unbounded_of_one_lt ((3999 / 2 : ℚ) / (2 * tol)) (by norm_num : (1 : ℚ) < 2)
  refine ⟨n, ?_⟩
  have h2 : (0 : ℚ) < 2 ^ n := by positivity
  have h3 : (0 : ℚ) < 2 * tol := by linarith
  rw [gt_iff_lt, not_lt, div_le_iff₀ h2]
  rw [div_lt_iff₀ h3] at hn
  linarith [mul_comm (2 * tol) ((2 : ℚ) ^ n)]

/-- For `tol > 0` the loop has a first state in which its condition fails, and
from there on every fuel is enough. -/
theorem exists_exit (ev : Evaluator) (a : Args) (rc0 : ℚ) (htol : 0 < a.tol) :
    ∃ n : ℕ, ¬ loopCond a (iter ev a rc0 n) ∧ (∀ k, k < n → loopCond a (iter ev a rc0 k)) ∧
      ∀ fuel, n ≤ fuel → loop ev a fuel (initState a rc0) = some (iter ev a rc0 n) := by
  classical
  have hex : ∃ n : ℕ, ¬ loopCond a (iter ev a rc0 n) := by
    obtain ⟨n, hn⟩ := exists_width_le a.tol htol
    exact ⟨n, fun h => hn ((loopCond_iter ev a rc0 n).1 h)⟩
  refine ⟨Nat.find hex, Nat.find_spec hex, fun k hk => ?_, ?_⟩
  · exact not_not.1 (Nat.find_min hex hk)
  · intro fuel hfuel
    exact loop_of_stop ev a (Nat.find hex) (initState a rc0) (Nat.find_spec hex)
      (fun k hk => not_not.1 (Nat.find_min hex hk)) fuel hfuel

/-- Whatever the fuel, a state returned by the loop is the iterate counted by its `iters`,
the loop condition fails there and held at every earlier iterate. -/
theorem loop_exit_state (ev : Evaluator) (a : Args) (rc0 : ℚ) (fuel : ℕ) (s : State)
    (h : loop ev a fuel (initState a rc0) = some s) :
    s = iter ev a rc0 s.iters ∧ s.iters ≤ fuel ∧ ¬ loopCond a s ∧
      ∀ k, k < s.iters → loopCond a (iter ev a rc0 k) := by
  obtain ⟨n, hn, hs, hstop, hrun⟩ := loop_some_inv ev a fuel _ _ h
  have hit : s.iters = n := by rw [hs]; exact iter_iters ev a rc0 n
  rw [hit]
  exact ⟨hs, hn, hstop, hrun⟩

/-- The result of `solver_nfw` in terms of the state in which the loop was left. -/
theorem solver_some (ev : Evaluator) (a : Args) (rc0 : ℚ) (fuel : ℕ) (res : Result)
    (h : solver_nfw ev a rc0 fuel = some res) :
    loop ev a fuel (initState a rc0) = some res.final ∧ res.ret = 0 ∧
      res.lambda = storeLambda res.final ∧ res.p = res.final.bufs.p ∧
      res.wt = res.final.bufs.wt := by
  unfold solver_nfw at h
  cases hl : loop ev a fuel (initState a rc0) with
  | none => rw [hl] at h; cases h
  | some s =>
    rw [hl] at h
    simp only [Option.some.injEq] at h
    subst h
    exact ⟨rfl, rfl, rfl, rfl, rfl⟩

theorem solver_of_loop (ev : Evaluator) (a : Args) (rc0 : ℚ) (fuel : ℕ) (s : State)
    (h : loop ev a fuel (initState a rc0) = some s) :
    solver_nfw ev a rc0 fuel =
      some { ret := 0, lambda := storeLambda s, p := s.bufs.p, wt := s.bufs.wt, final := s } := by
  unfold solver_nfw; rw [h]

/-- The bracket in which the loop is left has width between `0` and `2*tol`. -/
theorem exit_width (ev : Evaluator) (a : Args) (rc0 : ℚ) (fuel : ℕ) (s : State)
    (h : loop ev a fuel (initState a rc0) = some s) :
    0 < s.lamhi - s.lamlo ∧ s.lamhi - s.lamlo ≤ 2 * a.tol := by
  obtain ⟨hs, -, hstop, -⟩ := loop_exit_state ev a rc0 fuel s h
  have hpos : 0 < s.lamhi - s.lamlo := by rw [hs]; exact iter_width_pos ev a rc0 _
  refine ⟨hpos, ?_⟩
  unfold loopCond at hstop
  rw [abs_of_pos hpos] at hstop
  exact not_lt.1 hstop

theorem storeLambda_spec (s : State) :
    (1 ≤ (s.lamlo + s.lamhi) / 2 → storeLambda s = (s.lamlo + s.lamhi) / 2) ∧
      ((s.lamlo + s.lamhi) / 2 < 1 → storeLambda s = -1) := by
  unfold storeLambda
  simp only []
  constructor
  · intro h; rw [if_neg (not_lt.2 h)]
  · intro h; rw [if_pos h]

theorem clamp_of_lt (v : ℚ) (h : v < 1) : clamp v = 9 / 10 := by
  unfold clamp; rw [if_pos h]

theorem clamp_of_ge (v : ℚ) (h : 1 ≤ v) : clamp v = v := by
  unfold clamp; rw [if_neg (not_lt.2 h)]

theorem testOutmid_eq (ev : Evaluator) (a : Args) (s : State) :
    testOutmid ev a s
      = objective a (midpoint s) (call ev a (midpoint s) (lowEnd ev a s).bufs) := rfl

/-- The width of the bracket is positive after any number of executions of the body, and
the lower end never drops below `0.5`. -/
theorem iter_lamlo_ge (ev : Evaluator) (a : Args) (rc0 : ℚ) (n : ℕ) :
    1 / 2 ≤ (iter ev a rc0 n).lamlo ∧ (iter ev a rc0 n).lamlo < (iter ev a rc0 n).lamhi := by
  refine iter_induction ev a rc0 (fun s => 1 / 2 ≤ s.lamlo ∧ s.lamlo < s.lamhi) ?_ ?_ n
  · norm_num [initState]
  · rintro s ⟨h1, h2⟩
    rw [body_lamlo, body_lamhi]
    unfold midpoint
    split <;> constructor <;> linarith

/-! ## Claims -/

/-- C1 (sentinel law). For every evaluator, every `cpars` and every `tol`, in every call that
returns the value stored in `*lambda` is the midpoint of the final bracket when that midpoint
is at least `1`, and exactly `-1` when it is below `1`; so the stored value is never in
`[0, 1)`, and is never below `1` unless it is `-1`. -/
theorem sentinel_law (ev : Evaluator) (a : Args) (rc0 : ℚ) (fuel : ℕ) (res : Result)
    (h : solver_nfw ev a rc0 fuel = some res) :
    (1 ≤ (res.final.lamlo + res.final.lamhi) / 2 →
        res.lambda = (res.final.lamlo + res.final.lamhi) / 2) ∧
      ((res.final.lamlo + res.final.lamhi) / 2 < 1 → res.lambda = -1) ∧
      ¬ (0 ≤ res.lambda ∧ res.lambda < 1) ∧
      (res.lambda < 1 → res.lambda = -1) := by
  obtain ⟨-, -, hlam, -, -⟩ := solver_some ev a rc0 fuel res h
  obtain ⟨h1, h2⟩ := storeLambda_spec res.final
  rw [hlam]
  refine ⟨h1, h2, ?_, ?_⟩
  · rintro ⟨h0, hlt⟩
    rcases lt_or_le ((res.final.lamlo + res.final.lamhi) / 2) 1 with hc | hc
    · rw [h2 hc] at h0; norm_num at h0
    · rw [h1 hc] at hlt; exact absurd hlt (not_lt.2 hc)
  · intro hlt
    rcases lt_or_le ((res.final.lamlo + res.final.lamhi) / 2) 1 with hc | hc
    · exact h2 hc
    · rw [h1 hc] at hlt; exact absurd hlt (not_lt.2 hc)

theorem sentinel_law_witness :
    ∃ res, solver_nfw (constWeights [1] [5] 0) (oneGalaxy (1 / 100)) 0 17 = some res ∧
      (1 ≤ (res.final.lamlo + res.final.lamhi) / 2 →
          res.lambda = (res.final.lamlo + res.final.lamhi) / 2) ∧
      ((res.final.lamlo + res.final.lamhi) / 2 < 1 → res.lambda = -1) ∧
      ¬ (0 ≤ res.lambda ∧ res.lambda < 1) ∧
      (res.lambda < 1 → res.lambda = -1) := by
  obtain ⟨res, h⟩ := Option.isSome_iff_exists.1
    (show (solver_nfw (constWeights [1] [5] 0) (oneGalaxy (1 / 100)) 0 17).isSome = true by
      decide!)
  exact ⟨res, h, sentinel_law _ _ _ _ _ h⟩

/-- C3 (convergence). For every `tol > 0`, every `cpars` and every evaluator the bisection loop
terminates (every large enough fuel returns a state), and the bracket it leaves satisfies
`0 ≤ lamhi - lamlo ≤ 2*tol`, so the unfloored `lambda = (lamlo+lamhi)/2` is within `tol` of
both ends of the bracket. -/
theorem convergence (ev : Evaluator) (a : Args) (rc0 : ℚ) (htol : 0 < a.tol) :
    (∃ n, ∀ fuel, n ≤ fuel → (loop ev a fuel (initState a rc0)).isSome = true) ∧
      ∀ fuel s, loop ev a fuel (initState a rc0) = some s →
        0 ≤ s.lamhi - s.lamlo ∧ s.lamhi - s.lamlo ≤ 2 * a.tol ∧
          |(s.lamlo + s.lamhi) / 2 - s.lamlo| ≤ a.tol ∧
          |s.lamhi - (s.lamlo + s.lamhi) / 2| ≤ a.tol := by
  constructor
  · obtain ⟨n, -, -, hn⟩ := exists_exit ev a rc0 htol
    exact ⟨n, fun fuel hf => by rw [hn fuel hf]; rfl⟩
  · intro fuel s h
    obtain ⟨hpos, hle⟩ := exit_width ev a rc0 fuel s h
    refine ⟨le_of_lt hpos, hle, ?_, ?_⟩
    · rw [abs_le]; constructor <;> linarith
    · rw [abs_le]; constructor <;> linarith

theorem convergence_witness :
    (0 : ℚ) < (oneGalaxy (1 / 100)).tol ∧
      ((∃ n, ∀ fuel, n ≤ fuel →
          (loop (constWeights [1] [5] 0) (oneGalaxy (1 / 100)) fuel
            (initState (oneGalaxy (1 / 100)) 0)).isSome = true) ∧
        ∀ fuel s, loop (constWeights [1] [5] 0) (oneGalaxy (1 / 100)) fuel
            (initState (oneGalaxy (1 / 100)) 0) = some s →
          0 ≤ s.lamhi - s.lamlo ∧ s.lamhi - s.lamlo ≤ 2 * (oneGalaxy (1 / 100)).tol ∧
            |(s.lamlo + s.lamhi) / 2 - s.lamlo| ≤ (oneGalaxy (1 / 100)).tol ∧
            |s.lamhi - (s.lamlo + s.lamhi) / 2| ≤ (oneGalaxy (1 / 100)).tol) :=
  ⟨by norm_num [oneGalaxy],
    convergence (constWeights [1] [5] 0) (oneGalaxy (1 / 100)) 0 (by norm_num [oneGalaxy])⟩

/-- C5 (monotonic bracket shrink). Whichever branch of the sign test is taken, one execution
of the loop body replaces the bracket by one of exactly half the width; hence after `N`
executions `lamhi - lamlo = 1999.5 / 2^N`, for every evaluator, and the bracket in which the
loop is left has width `1999.5 / 2^iters`. -/
theorem bracket_halves (ev : Evaluator) (a : Args) :
    (∀ s : State,
        (signTest ev a s → (body ev a s).lamlo = midpoint s ∧ (body ev a s).lamhi = s.lamhi) ∧
        (¬ signTest ev a s → (body ev a s).lamlo = s.lamlo ∧ (body ev a s).lamhi = midpoint s) ∧
        (body ev a s).lamhi - (body ev a s).lamlo = (s.lamhi - s.lamlo) / 2) ∧
      (∀ (rc0 : ℚ) (N : ℕ),
        (iter ev a rc0 N).lamhi - (iter ev a rc0 N).lamlo = 1999.5 / 2 ^ N) ∧
      ∀ (rc0 : ℚ) (fuel : ℕ) (s : State), loop ev a fuel (initState a rc0) = some s →
        s.lamhi - s.lamlo = 1999.5 / 2 ^ s.iters := by
  have hc : (1999.5 : ℚ) = 3999 / 2 := by norm_num
  refine ⟨fun s => ⟨fun h => ?_, fun h => ?_, body_width ev a s⟩, fun rc0 N => ?_,
    fun rc0 fuel s h => ?_⟩
  · rw [body_lamlo, body_lamhi, if_pos h, if_pos h]; exact ⟨rfl, rfl⟩
  · rw [body_lamlo, body_lamhi, if_neg h, if_neg h]; exact ⟨rfl, rfl⟩
  · rw [hc]; exact iter_width ev a rc0 N
  · obtain ⟨hs, -, -, -⟩ := loop_exit_state ev a rc0 fuel s h
    rw [hc]
    have := iter_width ev a rc0 s.iters
    rw [← hs] at this
    exact this

/-- While the objective is the constant `5`, the bracket keeps `lamlo < 5 ≤ lamhi` and the
cached low-end value is either unset or `5`. -/
theorem const5_invariant (ev : Evaluator) (a : Args) (rc0 : ℚ)
    (hF : ∀ (x : ℚ) (b : Bufs), objective a x (call ev a x b) = 5) (n : ℕ) :
    (iter ev a rc0 n).lamlo < 5 ∧ 5 ≤ (iter ev a rc0 n).lamhi ∧
      ((iter ev a rc0 n).outlo < 0 ∨ (iter ev a rc0 n).outlo = 5) := by
  refine iter_induction ev a rc0
    (fun s => s.lamlo < 5 ∧ 5 ≤ s.lamhi ∧ (s.outlo < 0 ∨ s.outlo = 5)) ?_ ?_ n
  · norm_num [initState]
  · rintro s ⟨hlo, hhi, hout⟩
    have hto : testOutlo ev a s = 5 := by
      unfold testOutlo
      by_cases hneg : s.outlo < 0
      · rw [lowEnd_of_neg ev a s hneg]
        simp only [hF]
        exact clamp_of_ge 5 (by norm_num)
      · rw [lowEnd_of_not_neg ev a s hneg]
        rcases hout with h | h
        · exact absurd h hneg
        · rw [h]; exact clamp_of_ge 5 (by norm_num)
    have htm : testOutmid ev a s = 5 := by rw [testOutmid_eq]; exact hF _ _
    have hsign : signTest ev a s ↔ midpoint s < 5 := by
      unfold signTest
      rw [hto, htm]
      constructor
      · intro h
        by_contra hc
        have : (5 - s.lamlo) * (5 - midpoint s) ≤ 0 :=
          mul_nonpos_of_nonneg_of_nonpos (by linarith) (by linarith)
        linarith
      · intro h
        exact mul_pos (by linarith) (by linarith)
    rw [body_lamlo, body_lamhi, body_outlo]
    by_cases hs : signTest ev a s
    · rw [if_pos hs, if_pos hs, if_pos hs]
      exact ⟨hsign.1 hs, hhi, Or.inl (by norm_num)⟩
    · rw [if_neg hs, if_neg hs, if_neg hs]
      exact ⟨hlo, not_lt.1 (fun h => hs (hsign.2 h)), Or.inr hto⟩

/-- C2 (constant objective). If the evaluator makes the objective `sum(wt) + x*C(rc)` equal
to `5` at every trial value `x`, then for every `tol > 0` the call returns, the stored
`lambda` satisfies `|lambda - 5| ≤ tol`, and it is not the sentinel `-1`. -/
theorem constant_objective (ev : Evaluator) (a : Args) (rc0 : ℚ)
    (hF : ∀ (x : ℚ) (b : Bufs), objective a x (call ev a x b) = 5) (htol : 0 < a.tol) :
    (∃ n, ∀ fuel, n ≤ fuel → (solver_nfw ev a rc0 fuel).isSome = true) ∧
      ∀ fuel res, solver_nfw ev a rc0 fuel = some res →
        |res.lambda - 5| ≤ a.tol ∧ res.lambda ≠ -1 := by
  constructor
  · obtain ⟨n, -, -, hn⟩ := exists_exit ev a rc0 htol
    exact ⟨n, fun fuel hf => by rw [solver_of_loop ev a rc0 fuel _ (hn fuel hf)]; rfl⟩
  · intro fuel res h
    obtain ⟨hl, -, hlam, -, -⟩ := solver_some ev a rc0 fuel res h
    obtain ⟨hs, -, -, -⟩ := loop_exit_state ev a rc0 fuel _ hl
    obtain ⟨-, hw⟩ := exit_width ev a rc0 fuel _ hl
    obtain ⟨hlo, hhi, -⟩ := const5_invariant ev a rc0 hF res.final.iters
    obtain ⟨hge, -⟩ := iter_lamlo_ge ev a rc0 res.final.iters
    rw [← hs] at hlo hhi hge
    have hmid : 1 ≤ (res.final.lamlo + res.final.lamhi) / 2 := by linarith
    rw [hlam, (storeLambda_spec res.final).1 hmid]
    refine ⟨?_, by linarith⟩
    rw [abs_le]; constructor <;> linarith

theorem constant_objective_witness :
    (∀ (x : ℚ) (b : Bufs),
        objective (oneGalaxy (1 / 100)) x
          (call (constWeights [1] [5] 0) (oneGalaxy (1 / 100)) x b) = 5) ∧
      (0 : ℚ) < (oneGalaxy (1 / 100)).tol ∧
      ((∃ n, ∀ fuel, n ≤ fuel →
          (solver_nfw (constWeights [1] [5] 0) (oneGalaxy (1 / 100)) 0 fuel).isSome = true) ∧
        ∀ fuel res, solver_nfw (constWeights [1] [5] 0) (oneGalaxy (1 / 100)) 0 fuel = some res →
          |res.lambda - 5| ≤ (oneGalaxy (1 / 100)).tol ∧ res.lambda ≠ -1) :=
  have hF : ∀ (x : ℚ) (b : Bufs),
      objective (oneGalaxy (1 / 100)) x
        (call (constWeights [1] [5] 0) (oneGalaxy (1 / 100)) x b) = 5 := by
    intro x b
    simp [objective, call, constWeights, oneGalaxy, sumwt, cval, List.range_succ]
  ⟨hF, by norm_num [oneGalaxy],
    constant_objective (constWeights [1] [5] 0) (oneGalaxy (1 / 100)) 0 hF
      (by norm_num [oneGalaxy])⟩

/-- With `ngal = 0` and `cpars = [0,0,0,0]` the objective is `0` whatever the evaluator
writes. -/
theorem objective_empty (a : Args) (hn : a.ngal = 0) (hc : a.cpars = [0, 0, 0, 0])
    (x : ℚ) (b : Bufs) : objective a x b = 0 := by
  simp [objective, sumwt, cval, hn, hc]

/-- With `ngal = 0` and `cpars = [0,0,0,0]` the lower end of the bracket never moves. -/
theorem empty_invariant (ev : Evaluator) (a : Args) (rc0 : ℚ)
    (hn : a.ngal = 0) (hc : a.cpars = [0, 0, 0, 0]) (n : ℕ) :
    (iter ev a rc0 n).lamlo = 1 / 2 ∧ (iter ev a rc0 n).lamlo < (iter ev a rc0 n).lamhi ∧
      ((iter ev a rc0 n).outlo < 0 ∨ (iter ev a rc0 n).outlo = 9 / 10) := by
  refine iter_induction ev a rc0
    (fun s => s.lamlo = 1 / 2 ∧ s.lamlo < s.lamhi ∧ (s.outlo < 0 ∨ s.outlo = 9 / 10)) ?_ ?_ n
  · norm_num [initState]
  · rintro s ⟨hlo, hlt, hout⟩
    have hto : testOutlo ev a s = 9 / 10 := by
      unfold testOutlo
      by_cases hneg : s.outlo < 0
      · rw [lowEnd_of_neg ev a s hneg]
        simp only [objective_empty a hn hc]
        exact clamp_of_lt 0 (by norm_num)
      · rw [lowEnd_of_not_neg ev a s hneg]
        rcases hout with h | h
        · exact absurd h hneg
        · rw [h]; exact clamp_of_lt _ (by norm_num)
    have htm : testOutmid ev a s = 0 := by rw [testOutmid_eq]; exact objective_empty a hn hc _ _
    have hsign : ¬ signTest ev a s := by
      unfold signTest
      rw [hto, htm, hlo]
      have hm : 0 < midpoint s := by unfold midpoint; linarith
      nlinarith
    rw [body_lamlo, body_lamhi, body_outlo, if_neg hsign, if_neg hsign, if_neg hsign]
    refine ⟨hlo, ?_, Or.inr hto⟩
    unfold midpoint; linarith

/-- C6 (empty sample). With `ngal = 0` and `cpars = [0,0,0,0]`, whatever the evaluator
reports, for every `tol` with `0 < tol < 0.5` the call returns and stores `lambda = -1`. -/
theorem empty_sample (ev : Evaluator) (a : Args) (rc0 : ℚ)
    (hn : a.ngal = 0) (hc : a.cpars = [0, 0, 0, 0]) (htol : 0 < a.tol) (hsmall : a.tol < 0.5) :
    (∃ n, ∀ fuel, n ≤ fuel → (solver_nfw ev a rc0 fuel).isSome = true) ∧
      ∀ fuel res, solver_nfw ev a rc0 fuel = some res → res.lambda = -1 := by
  constructor
  · obtain ⟨n, -, -, hn⟩ := exists_exit ev a rc0 htol
    exact ⟨n, fun fuel hf => by rw [solver_of_loop ev a rc0 fuel _ (hn fuel hf)]; rfl⟩
  · intro fuel res h
    obtain ⟨hl, -, hlam, -, -⟩ := solver_some ev a rc0 fuel res h
    obtain ⟨hs, -, -, -⟩ := loop_exit_state ev a rc0 fuel _ hl
    obtain ⟨-, hw⟩ := exit_width ev a rc0 fuel _ hl
    obtain ⟨hlo, -, -⟩ := empty_invariant ev a rc0 hn hc res.final.iters
    rw [← hs] at hlo
    have hsm : a.tol < 1 / 2 := by norm_num at hsmall; exact hsmall
    rw [hlam]
    exact (storeLambda_spec res.final).2 (by linarith)

theorem empty_sample_witness :
    (noGalaxy (1 / 100)).ngal = 0 ∧ (noGalaxy (1 / 100)).cpars = [0, 0, 0, 0] ∧
      (0 : ℚ) < (noGalaxy (1 / 100)).tol ∧ (noGalaxy (1 / 100)).tol < 0.5 ∧
      ((∃ n, ∀ fuel, n ≤ fuel →
          (solver_nfw (constWeights [] [] 3) (noGalaxy (1 / 100)) 0 fuel).isSome = true) ∧
        ∀ fuel res, solver_nfw (constWeights [] [] 3) (noGalaxy (1 / 100)) 0 fuel = some res →
          res.lambda = -1) :=
  ⟨rfl, rfl, by norm_num [noGalaxy], by norm_num [noGalaxy],
    empty_sample (constWeights [] [] 3) (noGalaxy (1 / 100)) 0 rfl rfl
      (by norm_num [noGalaxy]) (by norm_num [noGalaxy])⟩

/-- The ceiling in the iteration bound is `-1` at `tol = 1999.5`. -/
theorem ceil_logb_at_full_width :
    ⌈Real.logb 2 (1999.5 / (2 * (((oneGalaxy 1999.5).tol : ℚ) : ℝ)))⌉ = -1 := by
  have h : (1999.5 / (2 * (((oneGalaxy 1999.5).tol : ℚ) : ℝ))) = (2 : ℝ)⁻¹ := by
    norm_num [oneGalaxy]
  rw [h, Real.logb_inv, Real.logb_self_eq_one (by norm_num),
    show (-1 : ℝ) = ((-1 : ℤ) : ℝ) by norm_num, Int.ceil_intCast]

/-- When the loop condition fails on entry, `solver_nfw` returns at once, with any fuel. -/
theorem solver_of_not_loopCond (ev : Evaluator) (a : Args) (rc0 : ℚ) (fuel : ℕ)
    (hc : ¬ loopCond a (initState a rc0)) :
    solver_nfw ev a rc0 fuel =
      some { ret := 0, lambda := storeLambda (initState a rc0), p := a.p, wt := a.wt,
             final := initState a rc0 } := by
  have hl : loop ev a fuel (initState a rc0) = some (initState a rc0) := by
    cases fuel <;> simp only [loop, hc, if_false]
  rw [solver_of_loop ev a rc0 fuel _ hl]
  rfl

/-- If an iteration count `m + 1` is reached, `2^m` is below `1999.5 / (2*tol)`, so `m` is
below the base-2 logarithm of that quotient. -/
theorem lt_logb_of_loopCond (ev : Evaluator) (a : Args) (rc0 : ℚ) (htol : 0 < a.tol) (m : ℕ)
    (h : loopCond a (iter ev a rc0 m)) :
    (m : ℝ) < Real.logb 2 (1999.5 / (2 * (a.tol : ℝ))) := by
  have hq : (3999 / 2 : ℚ) / 2 ^ m > 2 * a.tol := (loopCond_iter ev a rc0 m).1 h
  have h2 : (0 : ℚ) < 2 ^ m := by positivity
  have hq2 : (2 : ℚ) ^ m * (2 * a.tol) < 3999 / 2 := by
    rw [gt_iff_lt, lt_div_iff₀ h2] at hq
    linarith
  have hr : (2 : ℝ) ^ m * (2 * (a.tol : ℝ)) < 3999 / 2 := by
    have := (Rat.cast_lt (K := ℝ)).2 hq2
    push_cast at this
    exact this
  have htr : (0 : ℝ) < 2 * (a.tol : ℝ) := by
    have : (0 : ℝ) < (a.tol : ℝ) := by exact_mod_cast htol
    linarith
  have hy : (0 : ℝ) < 1999.5 / (2 * (a.tol : ℝ)) := by
    apply div_pos _ htr; norm_num
  rw [Real.lt_logb_iff_rpow_lt (by norm_num) hy, Real.rpow_natCast, lt_div_iff₀ htr]
  norm_num
  linarith

/-- C4 (termination bound), amended. For every `tol > 0` and every evaluator the loop executes
at most `max 0 (ceil (log2 (1999.5 / (2*tol))))` iterations: that many units of fuel are
enough for the call to return, every run that returns has executed at most that many
iterations, and for `tol < 1999.5` the bound is `ceil (log2 (1999.5 / (2*tol)))` itself. -/
theorem iteration_bound (ev : Evaluator) (a : Args) (rc0 : ℚ) (htol : 0 < a.tol) :
    (solver_nfw ev a rc0 ⌈Real.logb 2 (1999.5 / (2 * (a.tol : ℝ)))⌉.toNat).isSome = true ∧
      (∀ fuel res, solver_nfw ev a rc0 fuel = some res →
        (res.final.iters : ℤ) ≤ max 0 ⌈Real.logb 2 (1999.5 / (2 * (a.tol : ℝ)))⌉) ∧
      (a.tol < 1999.5 → ∀ fuel res, solver_nfw ev a rc0 fuel = some res →
        (res.final.iters : ℤ) ≤ ⌈Real.logb 2 (1999.5 / (2 * (a.tol : ℝ)))⌉) := by
  have key : ∀ fuel s, loop ev a fuel (initState a rc0) = some s → 1 ≤ s.iters →
      (s.iters : ℤ) ≤ ⌈Real.logb 2 (1999.5 / (2 * (a.tol : ℝ)))⌉ := by
    intro fuel s hl hpos
    obtain ⟨-, -, -, hrun⟩ := loop_exit_state ev a rc0 fuel s hl
    obtain ⟨m, hm⟩ : ∃ m, s.iters = m + 1 := ⟨s.iters - 1, by omega⟩
    have hlt := lt_logb_of_loopCond ev a rc0 htol m (hrun m (by omega))
    have hz : (m : ℤ) < ⌈Real.logb 2 (1999.5 / (2 * (a.tol : ℝ)))⌉ := by
      rw [Int.lt_ceil]; exact_mod_cast hlt
    rw [hm]; push_cast; omega
  have bound : ∀ fuel s, loop ev a fuel (initState a rc0) = some s →
      (s.iters : ℤ) ≤ max 0 ⌈Real.logb 2 (1999.5 / (2 * (a.tol : ℝ)))⌉ := by
    intro fuel s hl
    rcases Nat.eq_zero_or_pos s.iters with h0 | hpos
    · rw [h0]; exact le_max_left _ _
    · exact le_trans (key fuel s hl hpos) (le_max_right _ _)
  refine ⟨?_, fun fuel res h => bound fuel _ (solver_some ev a rc0 fuel res h).1, ?_⟩
  · obtain ⟨n, -, -, hn⟩ := exists_exit ev a rc0 htol
    have hb := bound n _ (hn n (le_refl n))
    rw [iter_iters] at hb
    have hle : n ≤ ⌈Real.logb 2 (1999.5 / (2 * (a.tol : ℝ)))⌉.toNat := by
      rcases le_max_iff.1 hb with h | h
      · have : n = 0 := by omega
        omega
      · omega
    rw [solver_of_loop ev a rc0 _ _ (hn _ hle)]; rfl
  · intro hlt fuel res h
    have hl := (solver_some ev a rc0 fuel res h).1
    rcases Nat.eq_zero_or_pos res.final.iters with h0 | hpos
    · rw [h0]
      have htr : (0 : ℝ) < 2 * (a.tol : ℝ) := by
        have : (0 : ℝ) < (a.tol : ℝ) := by exact_mod_cast htol
        linarith
      have hy : (0 : ℝ) < 1999.5 / (2 * (a.tol : ℝ)) := by
        apply div_pos _ htr; norm_num
      have hr : (a.tol : ℝ) < 3999 / 2 := by
        have hq : a.tol < 3999 / 2 := by norm_num at hlt; exact hlt
        have := (Rat.cast_lt (K := ℝ)).2 hq
        push_cast at this
        exact this
      have : ((-1 : ℤ) : ℝ) < Real.logb 2 (1999.5 / (2 * (a.tol : ℝ))) := by
        rw [Real.lt_logb_iff_rpow_lt (by norm_num) hy, lt_div_iff₀ htr]
        norm_num
        linarith
      have hz := Int.lt_ceil.2 this
      push_cast
      omega
    · exact key fuel _ hl hpos

theorem iteration_bound_witness :
    (0 : ℚ) < (oneGalaxy (1 / 100)).tol ∧
      (solver_nfw (constWeights [1] [5] 0) (oneGalaxy (1 / 100)) 0
          ⌈Real.logb 2 (1999.5 / (2 * (((oneGalaxy (1 / 100)).tol : ℚ) : ℝ)))⌉.toNat).isSome
        = true :=
  ⟨by norm_num [oneGalaxy],
    (iteration_bound (constWeights [1] [5] 0) (oneGalaxy (1 / 100)) 0
      (by norm_num [oneGalaxy])).1⟩

/-- C4 as stated fails at `tol = 1999.5`: the call returns after `0` iterations, while
`ceil (log2 (1999.5 / (2*tol))) = ceil (log2 0.5) = -1`. -/
theorem iteration_bound_counterexample :
    ∃ res, solver_nfw (constWeights [1] [5] 0) (oneGalaxy 1999.5) 0 0 = some res ∧
      res.final.iters = 0 ∧
      ⌈Real.logb 2 (1999.5 / (2 * (((oneGalaxy 1999.5).tol : ℚ) : ℝ)))⌉ = -1 ∧
      ¬ ((res.final.iters : ℤ) ≤
          ⌈Real.logb 2 (1999.5 / (2 * (((oneGalaxy 1999.5).tol : ℚ) : ℝ)))⌉) := by
  have hc : ¬ loopCond (oneGalaxy 1999.5) (initState (oneGalaxy 1999.5) 0) := by
    norm_num [loopCond, initState, oneGalaxy, abs_of_pos]
  refine ⟨_, solver_of_not_loopCond _ _ 0 0 hc, rfl, ceil_logb_at_full_width, ?_⟩
  rw [ceil_logb_at_full_width]
  simp [initState]

/-! ## Evaluator calls -/

theorem lowEnd_calls_length (ev : Evaluator) (a : Args) (s : State) :
    s.calls.length ≤ (lowEnd ev a s).calls.length := by
  unfold lowEnd; split <;> simp

/-- Every execution of the loop body makes at least one evaluator call. -/
theorem body_calls_length (ev : Evaluator) (a : Args) (s : State) :
    s.calls.length + 1 ≤ (body ev a s).calls.length := by
  rw [body_calls, List.length_append, List.length_singleton]
  exact Nat.add_le_add_right (lowEnd_calls_length ev a s) 1

theorem iter_calls_length (ev : Evaluator) (a : Args) (rc0 : ℚ) (n : ℕ) :
    n ≤ (iter ev a rc0 n).calls.length := by
  induction n with
  | zero => exact Nat.zero_le _
  | succ k ih => rw [iter_succ]; exact le_trans (Nat.succ_le_succ ih) (body_calls_length ev a _)

/-- The first execution of the loop body calls the evaluator twice, at `lamlo = 0.5` and
at `mid = 1000.25`. -/
theorem first_iteration_calls (ev : Evaluator) (a : Args) (rc0 : ℚ) :
    ((iter ev a rc0 1).calls.map Prod.fst) = [1 / 2, 4001 / 4] := by
  rw [iter_succ, iter_zero, body_calls, lowEnd_of_neg ev a _ (by norm_num [initState])]
  norm_num [initState, midpoint]

/-- For a pure evaluator the buffers passed to a call do not matter. -/
theorem call_pure (ev : Evaluator) (hpure : PureEvaluator ev) (a : Args) (x : ℚ) (b : Bufs) :
    call ev a x b = evalAt ev a x := by
  unfold evalAt call
  exact hpure _ _ _ _ _ _ _ _ _ _ _

/-- C7 (output buffers), amended. After a solve that ran at least one iteration, `wt`, `p`
and `rc` hold exactly what the evaluator wrote in its final call, that call was made at the
midpoint `mid` of the last iteration, and `mid` is an end of the final bracket; in exact
arithmetic it differs from the unfloored `lambda = (lamlo+lamhi)/2` by exactly half the final
width, which is positive and at most `tol`. -/
theorem output_buffers (ev : Evaluator) (a : Args) (rc0 : ℚ) (fuel : ℕ) (res : Result)
    (h : solver_nfw ev a rc0 fuel = some res) (hit : 1 ≤ res.final.iters) :
    ∃ (mid : ℚ) (before : Bufs),
      mid = midpoint (iter ev a rc0 (res.final.iters - 1)) ∧
      res.final.calls.getLast? = some (mid, call ev a mid before) ∧
      res.wt = (call ev a mid before).wt ∧ res.p = (call ev a mid before).p ∧
      res.final.bufs.rc = (call ev a mid before).rc ∧
      (mid = res.final.lamlo ∨ mid = res.final.lamhi) ∧
      |mid - (res.final.lamlo + res.final.lamhi) / 2|
        = (res.final.lamhi - res.final.lamlo) / 2 ∧
      0 < (res.final.lamhi - res.final.lamlo) / 2 ∧
      (res.final.lamhi - res.final.lamlo) / 2 ≤ a.tol := by
  obtain ⟨hl, -, -, hp, hwt⟩ := solver_some ev a rc0 fuel res h
  obtain ⟨hs, -, -, -⟩ := loop_exit_state ev a rc0 fuel _ hl
  obtain ⟨hpos, hw⟩ := exit_width ev a rc0 fuel _ hl
  obtain ⟨m, hm⟩ : ∃ m, res.final.iters = m + 1 := ⟨res.final.iters - 1, by omega⟩
  have hfin : res.final = body ev a (iter ev a rc0 m) := by
    rw [← iter_succ, ← hm]; exact hs
  have hbufs := body_bufs ev a (iter ev a rc0 m)
  have hcalls := body_calls ev a (iter ev a rc0 m)
  rw [← hfin] at hbufs hcalls
  refine ⟨midpoint (iter ev a rc0 m), (lowEnd ev a (iter ev a rc0 m)).bufs, ?_, ?_, ?_, ?_, ?_,
    ?_, ?_, by linarith, by linarith⟩
  · rw [hm, Nat.add_sub_cancel]
  · rw [hcalls, hbufs]; simp
  · rw [hwt, hbufs]
  · rw [hp, hbufs]
  · rw [hbufs]
  · rcases body_bracket ev a (iter ev a rc0 m) with ⟨h1, -⟩ | ⟨-, h2⟩
    · left; rw [hfin, h1]
    · right; rw [hfin, h2]
  · rcases body_bracket ev a (iter ev a rc0 m) with ⟨h1, -⟩ | ⟨-, h2⟩
    · rw [← hfin] at h1
      rw [← h1, abs_of_neg (by linarith)]; ring
    · rw [← hfin] at h2
      rw [← h2, abs_of_pos (by linarith)]; ring

theorem output_buffers_witness :
    ∃ res : Result,
      solver_nfw (constWeights [1] [5] 0) (oneGalaxy 600) 0 1 = some res ∧
      1 ≤ res.final.iters ∧
      ∃ (mid : ℚ) (before : Bufs),
        mid = midpoint (iter (constWeights [1] [5] 0) (oneGalaxy 600) 0 (res.final.iters - 1)) ∧
        res.final.calls.getLast?
          = some (mid, call (constWeights [1] [5] 0) (oneGalaxy 600) mid before) ∧
        res.wt = (call (constWeights [1] [5] 0) (oneGalaxy 600) mid before).wt ∧
        res.p = (call (constWeights [1] [5] 0) (oneGalaxy 600) mid before).p ∧
        res.final.bufs.rc = (call (constWeights [1] [5] 0) (oneGalaxy 600) mid before).rc ∧
        (mid = res.final.lamlo ∨ mid = res.final.lamhi) ∧
        |mid - (res.final.lamlo + res.final.lamhi) / 2|
          = (res.final.lamhi - res.final.lamlo) / 2 ∧
        0 < (res.final.lamhi - res.final.lamlo) / 2 ∧
        (res.final.lamhi - res.final.lamlo) / 2 ≤ (oneGalaxy 600).tol := by
  have hstop : ¬ loopCond (oneGalaxy 600)
      ((body (constWeights [1] [5] 0) (oneGalaxy 600))^[1] (initState (oneGalaxy 600) 0)) := by
    have := loopCond_iter (constWeights [1] [5] 0) (oneGalaxy 600) 0 1
    unfold iter at this
    rw [this]
    norm_num [oneGalaxy]
  have hrun : ∀ k, k < 1 → loopCond (oneGalaxy 600)
      ((body (constWeights [1] [5] 0) (oneGalaxy 600))^[k] (initState (oneGalaxy 600) 0)) := by
    intro k hk
    have := loopCond_iter (constWeights [1] [5] 0) (oneGalaxy 600) 0 k
    unfold iter at this
    rw [this]
    obtain rfl : k = 0 := by omega
    norm_num [oneGalaxy]
  have hl := loop_of_stop (constWeights [1] [5] 0) (oneGalaxy 600) 1
    (initState (oneGalaxy 600) 0) hstop hrun 1 (le_refl 1)
  have hsol := solver_of_loop (constWeights [1] [5] 0) (oneGalaxy 600) 0 1 _ hl
  have hit : 1 ≤ ((body (constWeights [1] [5] 0) (oneGalaxy 600))^[1]
      (initState (oneGalaxy 600) 0)).iters := by
    rw [Function.iterate_one, body_iters]; omega
  exact ⟨_, hsol, hit,
    output_buffers (constWeights [1] [5] 0) (oneGalaxy 600) 0 1 _ hsol hit⟩

/-- C8 as stated fails at `tol = 0`: nothing rejects the call, the loop condition holds on
entry, the first iteration calls the evaluator at `0.5` and at `1000.25`, and no amount of
fuel makes the call return; in particular no run returns without a call and without a
bisection step. -/
theorem fail_fast_counterexample :
    loopCond (oneGalaxy 0) (initState (oneGalaxy 0) 0) ∧
      ((iter (constWeights [1] [5] 0) (oneGalaxy 0) 0 1).calls.map Prod.fst)
        = [1 / 2, 4001 / 4] ∧
      (∀ fuel, solver_nfw (constWeights [1] [5] 0) (oneGalaxy 0) 0 fuel = none) ∧
      ¬ ∃ fuel res, solver_nfw (constWeights [1] [5] 0) (oneGalaxy 0) 0 fuel = some res ∧
          res.final.calls = [] ∧ res.final.iters = 0 := by
  have hcond : ∀ n, loopCond (oneGalaxy 0)
      (iter (constWeights [1] [5] 0) (oneGalaxy 0) 0 n) := by
    intro n
    rw [loopCond_iter]
    show (3999 / 2 : ℚ) / 2 ^ n > 2 * 0
    rw [mul_zero]
    positivity
  have hnone : ∀ fuel, solver_nfw (constWeights [1] [5] 0) (oneGalaxy 0) 0 fuel = none := by
    intro fuel
    unfold solver_nfw
    rw [loop_none_of_run _ _ fuel _ (fun k _ => hcond k)]
  refine ⟨hcond 0, first_iteration_calls _ _ _, hnone, ?_⟩
  rintro ⟨fuel, res, h, -, -⟩
  rw [hnone fuel] at h
  cases h

/-- In exact arithmetic a call with `tol ≤ 0` never leaves the loop: the loop condition holds
after every iteration, every iteration makes at least one call, and no fuel is enough. -/
theorem nonpositive_tol_runs_forever (ev : Evaluator) (a : Args) (rc0 : ℚ) (htol : a.tol ≤ 0) :
    (∀ n, loopCond a (iter ev a rc0 n)) ∧
      ((iter ev a rc0 1).calls.map Prod.fst) = [1 / 2, 4001 / 4] ∧
      (∀ n, n ≤ (iter ev a rc0 n).calls.length ∧ (iter ev a rc0 n).iters = n) ∧
      ∀ fuel, solver_nfw ev a rc0 fuel = none := by
  have hcond : ∀ n, loopCond a (iter ev a rc0 n) := by
    intro n
    rw [loopCond_iter]
    have : (0 : ℚ) < (3999 / 2) / 2 ^ n := by positivity
    linarith
  refine ⟨hcond, first_iteration_calls ev a rc0,
    fun n => ⟨iter_calls_length ev a rc0 n, iter_iters ev a rc0 n⟩, fun fuel => ?_⟩
  unfold solver_nfw
  rw [loop_none_of_run ev a fuel _ (fun k _ => hcond k)]

/-- C8, amended. When `tol ≤ 0` is supplied nothing rejects the call before the loop runs:
the loop condition holds on entry, so the call has not returned before the loop body has
run, the loop body is run on the entry state, and this first iteration calls the evaluator
at `0.5` and at `1000.25` and takes one bisection step. -/
theorem nonpositive_tol_not_rejected (ev : Evaluator) (a : Args) (rc0 : ℚ)
    (htol : a.tol ≤ 0) :
    loopCond a (initState a rc0) ∧
      solver_nfw ev a rc0 0 = none ∧
      (∀ fuel, loop ev a (fuel + 1) (initState a rc0)
        = loop ev a fuel (body ev a (initState a rc0))) ∧
      ((body ev a (initState a rc0)).calls.map Prod.fst) = [1 / 2, 4001 / 4] ∧
      (body ev a (initState a rc0)).iters = 1 ∧
      (body ev a (initState a rc0)).lamhi - (body ev a (initState a rc0)).lamlo
        = 3999 / 4 := by
  have hcond : loopCond a (initState a rc0) := by
    have h := (loopCond_iter ev a rc0 0).2
    rw [iter_zero] at h
    apply h
    norm_num
    linarith
  have hcalls := first_iteration_calls ev a rc0
  rw [iter_succ, iter_zero] at hcalls
  refine ⟨hcond, ?_, fun fuel => ?_, hcalls, ?_, ?_⟩
  · unfold solver_nfw
    simp only [loop, hcond, if_true]
  · simp only [loop, hcond, if_true]
  · rw [body_iters]; rfl
  · rw [body_width]; norm_num [initState]

theorem nonpositive_tol_not_rejected_witness :
    (oneGalaxy (-1)).tol ≤ 0 ∧
      loopCond (oneGalaxy (-1)) (initState (oneGalaxy (-1)) 0) ∧
      solver_nfw (constWeights [1] [5] 0) (oneGalaxy (-1)) 0 0 = none ∧
      ((body (constWeights [1] [5] 0) (oneGalaxy (-1))
          (initState (oneGalaxy (-1)) 0)).calls.map Prod.fst) = [1 / 2, 4001 / 4] :=
  ⟨by norm_num [oneGalaxy],
    (nonpositive_tol_not_rejected (constWeights [1] [5] 0) (oneGalaxy (-1)) 0
      (by norm_num [oneGalaxy])).1,
    (nonpositive_tol_not_rejected (constWeights [1] [5] 0) (oneGalaxy (-1)) 0
      (by norm_num [oneGalaxy])).2.1,
    (nonpositive_tol_not_rejected (constWeights [1] [5] 0) (oneGalaxy (-1)) 0
      (by norm_num [oneGalaxy])).2.2.2.1⟩

/-! ## Pure evaluators -/

theorem constWeights_pure (p wt : List ℚ) (rc : ℚ) : PureEvaluator (constWeights p wt rc) :=
  fun _ _ _ _ _ _ _ _ _ _ _ => rfl

/-- For a pure evaluator the loop body does not depend on what the buffers hold on entry. -/
theorem body_pure (ev : Evaluator) (hpure : PureEvaluator ev) (a : Args) (s : State)
    (b : Bufs) : body ev a { s with bufs := b } = body ev a s := by
  unfold body lowEnd midEval
  simp only [call_pure ev hpure]
  split <;> rfl

/-- For a pure evaluator the state after at least one iteration does not depend on the
indeterminate start value of `rc`. -/
theorem iter_pure (ev : Evaluator) (hpure : PureEvaluator ev) (a : Args) (rc0 rc1 : ℚ)
    (n : ℕ) : iter ev a rc0 (n + 1) = iter ev a rc1 (n + 1) := by
  induction n with
  | zero =>
    rw [iter_succ, iter_succ, iter_zero, iter_zero]
    have h := body_pure ev hpure a (initState a rc0) (initState a rc1).bufs
    rw [← h]
    rfl
  | succ k ih => rw [iter_succ, ih, ← iter_succ]

/-- C9 (determinism). For a pure evaluator, any two calls on the same arguments that return
store the same `lambda`, leave the same `wt` and the same `p` and return the same value,
whatever the indeterminate start value of the local `rc` and whatever the fuel. -/
theorem determinism (ev : Evaluator) (a : Args) (hpure : PureEvaluator ev)
    (rc0 rc1 : ℚ) (fuel0 fuel1 : ℕ) (res0 res1 : Result)
    (h0 : solver_nfw ev a rc0 fuel0 = some res0) (h1 : solver_nfw ev a rc1 fuel1 = some res1) :
    res0.ret = res1.ret ∧ res0.lambda = res1.lambda ∧ res0.wt = res1.wt ∧
      res0.p = res1.p := by
  obtain ⟨hl0, hr0, hlam0, hp0, hwt0⟩ := solver_some ev a rc0 fuel0 res0 h0
  obtain ⟨hl1, hr1, hlam1, hp1, hwt1⟩ := solver_some ev a rc1 fuel1 res1 h1
  obtain ⟨hs0, -, hstop0, hrun0⟩ := loop_exit_state ev a rc0 fuel0 _ hl0
  obtain ⟨hs1, -, hstop1, hrun1⟩ := loop_exit_state ev a rc1 fuel1 _ hl1
  have hsame : ∀ k, loopCond a (iter ev a rc0 k) ↔ loopCond a (iter ev a rc1 k) := by
    intro k; rw [loopCond_iter, loopCond_iter]
  have hk : res0.final.iters = res1.final.iters := by
    rcases Nat.lt_trichotomy res0.final.iters res1.final.iters with hlt | heq | hgt
    · exact absurd ((hsame _).2 (hrun1 _ hlt)) (by rw [← hs0]; exact hstop0)
    · exact heq
    · exact absurd ((hsame _).1 (hrun0 _ hgt)) (by rw [← hs1]; exact hstop1)
  rcases Nat.eq_zero_or_pos res0.final.iters with hz | hpos
  · have e0 : res0.final = initState a rc0 := by rw [hs0, hz]; rfl
    have e1 : res1.final = initState a rc1 := by rw [hs1, ← hk, hz]; rfl
    rw [hr0, hr1, hlam0, hlam1, hp0, hp1, hwt0, hwt1, e0, e1]
    exact ⟨rfl, rfl, rfl, rfl⟩
  · obtain ⟨m, hm⟩ : ∃ m, res0.final.iters = m + 1 := ⟨res0.final.iters - 1, by omega⟩
    have e : res0.final = res1.final := by
      rw [hs0, hs1, ← hk, hm]; exact iter_pure ev hpure a rc0 rc1 m
    rw [hr0, hr1, hlam0, hlam1, hp0, hp1, hwt0, hwt1, e]
    exact ⟨rfl, rfl, rfl, rfl⟩

theorem determinism_witness :
    PureEvaluator (constWeights [1] [5] 0) ∧
      ∃ res0 res1,
        solver_nfw (constWeights [1] [5] 0) (oneGalaxy (1 / 100)) 0 17 = some res0 ∧
        solver_nfw (constWeights [1] [5] 0) (oneGalaxy (1 / 100)) 3 20 = some res1 ∧
        res0.ret = res1.ret ∧ res0.lambda = res1.lambda ∧ res0.wt = res1.wt ∧
          res0.p = res1.p := by
  obtain ⟨res0, h0⟩ := Option.isSome_iff_exists.1
    (show (solver_nfw (constWeights [1] [5] 0) (oneGalaxy (1 / 100)) 0 17).isSome = true by
      decide!)
  obtain ⟨res1, h1⟩ := Option.isSome_iff_exists.1
    (show (solver_nfw (constWeights [1] [5] 0) (oneGalaxy (1 / 100)) 3 20).isSome = true by
      decide!)
  exact ⟨constWeights_pure [1] [5] 0, res0, res1, h0, h1,
    determinism (constWeights [1] [5] 0) (oneGalaxy (1 / 100)) (constWeights_pure [1] [5] 0)
      0 3 17 20 res0 res1 h0 h1⟩

theorem clamp_ge (v : ℚ) : 9 / 10 ≤ clamp v := by
  unfold clamp; split <;> linarith

theorem clamp_clamp (v : ℚ) : clamp (clamp v) = clamp v := by
  rcases lt_or_le v 1 with h | h
  · rw [clamp_of_lt v h]; exact clamp_of_lt _ (by norm_num)
  · rw [clamp_of_ge v h, clamp_of_ge v h]

/-- At the head of the loop the cached `outlo` is either unset (negative) or the clamped
objective at the current `lamlo`. -/
theorem cache_invariant (ev : Evaluator) (hpure : PureEvaluator ev) (a : Args) (rc0 : ℚ)
    (n : ℕ) :
    (iter ev a rc0 n).outlo < 0 ∨
      (iter ev a rc0 n).outlo = clamp (objectiveAt ev a (iter ev a rc0 n).lamlo) := by
  refine iter_induction ev a rc0
    (fun s => s.outlo < 0 ∨ s.outlo = clamp (objectiveAt ev a s.lamlo)) ?_ ?_ n
  · left; norm_num [initState]
  · intro s hs
    rw [body_outlo, body_lamlo]
    by_cases ht : signTest ev a s
    · rw [if_pos ht]; left; norm_num
    · rw [if_neg ht, if_neg ht]
      right
      unfold testOutlo
      by_cases hneg : s.outlo < 0
      · rw [lowEnd_of_neg ev a s hneg]
        simp only [call_pure ev hpure]
        rfl
      · rw [lowEnd_of_not_neg ev a s hneg]
        rcases hs with h | h
        · exact absurd h hneg
        · rw [h, clamp_clamp]

/-- C10 (cache correctness). With a pure evaluator, in every iteration the value of `outlo`
that enters the sign test is the clamped objective `sum(wt) + lamlo*C(rc)` of the evaluation
at the value `lamlo` has in that iteration; a cached value is reused only while it is that
value, and it is never the unset marker. -/
theorem cache_correct (ev : Evaluator) (a : Args) (rc0 : ℚ) (hpure : PureEvaluator ev)
    (n : ℕ) :
    testOutlo ev a (iter ev a rc0 n) = clamp (objectiveAt ev a (iter ev a rc0 n).lamlo) ∧
      (¬ (iter ev a rc0 n).outlo < 0 →
        (lowEnd ev a (iter ev a rc0 n)).calls = (iter ev a rc0 n).calls ∧
        (iter ev a rc0 n).outlo = clamp (objectiveAt ev a (iter ev a rc0 n).lamlo)) ∧
      ¬ testOutlo ev a (iter ev a rc0 n) < 0 := by
  have hinv := cache_invariant ev hpure a rc0 n
  have hto : testOutlo ev a (iter ev a rc0 n)
      = clamp (objectiveAt ev a (iter ev a rc0 n).lamlo) := by
    unfold testOutlo
    by_cases hneg : (iter ev a rc0 n).outlo < 0
    · rw [lowEnd_of_neg ev a _ hneg]
      simp only [call_pure ev hpure]
      rfl
    · rw [lowEnd_of_not_neg ev a _ hneg]
      rcases hinv with h | h
      · exact absurd h hneg
      · rw [h, clamp_clamp]
  refine ⟨hto, fun hneg => ?_, ?_⟩
  · rw [lowEnd_of_not_neg ev a _ hneg]
    rcases hinv with h | h
    · exact absurd h hneg
    · exact ⟨rfl, h⟩
  · rw [hto]
    have := clamp_ge (objectiveAt ev a (iter ev a rc0 n).lamlo)
    intro hlt
    linarith

theorem cache_correct_witness :
    PureEvaluator (constWeights [1] [5] 0) ∧
      (testOutlo (constWeights [1] [5] 0) (oneGalaxy (1 / 100))
          (iter (constWeights [1] [5] 0) (oneGalaxy (1 / 100)) 0 3)
        = clamp (objectiveAt (constWeights [1] [5] 0) (oneGalaxy (1 / 100))
            (iter (constWeights [1] [5] 0) (oneGalaxy (1 / 100)) 0 3).lamlo)) :=
  ⟨constWeights_pure [1] [5] 0,
    (cache_correct (constWeights [1] [5] 0) (oneGalaxy (1 / 100)) 0
      (constWeights_pure [1] [5] 0) 3).1⟩

/-! ## Range of the bracket -/

/-- The bracket stays inside `[0.5, 2000]`, `lamlo` never decreases and `lamhi` never
increases. -/
theorem iter_bracket_range (ev : Evaluator) (a : Args) (rc0 : ℚ) (n : ℕ) :
    1 / 2 ≤ (iter ev a rc0 n).lamlo ∧ (iter ev a rc0 n).lamlo < (iter ev a rc0 n).lamhi ∧
      (iter ev a rc0 n).lamhi ≤ 2000 := by
  refine iter_induction ev a rc0
    (fun s => 1 / 2 ≤ s.lamlo ∧ s.lamlo < s.lamhi ∧ s.lamhi ≤ 2000) ?_ ?_ n
  · norm_num [initState]
  · rintro s ⟨h1, h2, h3⟩
    rw [body_lamlo, body_lamhi]
    unfold midpoint
    split <;> refine ⟨?_, ?_, ?_⟩ <;> linarith

/-- C17 (zero iterations). If `2*tol ≥ 1999.5` the loop body never runs: with any fuel the
call returns at once, no evaluator call has been made, `wt` and `p` (and `rc`) are as they
were on entry, and the stored `lambda` is `1000.25`, whatever the evaluator, the galaxy data
and `cpars`. -/
theorem zero_iterations (ev : Evaluator) (a : Args) (rc0 : ℚ) (fuel : ℕ)
    (h : 1999.5 ≤ 2 * a.tol) :
    ¬ loopCond a (initState a rc0) ∧
      ∃ res, solver_nfw ev a rc0 fuel = some res ∧ res.final.iters = 0 ∧
        res.final.calls = [] ∧ res.wt = a.wt ∧ res.p = a.p ∧ res.final.bufs.rc = rc0 ∧
        res.lambda = 1000.25 ∧ res.ret = 0 := by
  have hq : (3999 / 2 : ℚ) ≤ 2 * a.tol := by norm_num at h; exact h
  have hc : ¬ loopCond a (initState a rc0) := by
    unfold loopCond
    have hw : (initState a rc0).lamhi - (initState a rc0).lamlo = 3999 / 2 := by
      norm_num [initState]
    rw [hw, abs_of_pos (by norm_num)]
    exact not_lt.2 hq
  refine ⟨hc, _, solver_of_not_loopCond ev a rc0 fuel hc, rfl, rfl, rfl, rfl, rfl, ?_, rfl⟩
  norm_num [storeLambda, initState]

theorem zero_iterations_witness :
    (1999.5 : ℚ) ≤ 2 * (oneGalaxy 1000).tol ∧
      (¬ loopCond (oneGalaxy 1000) (initState (oneGalaxy 1000) 7) ∧
        ∃ res, solver_nfw (constWeights [1] [5] 0) (oneGalaxy 1000) 7 3 = some res ∧
          res.final.iters = 0 ∧ res.final.calls = [] ∧ res.wt = (oneGalaxy 1000).wt ∧
          res.p = (oneGalaxy 1000).p ∧ res.final.bufs.rc = 7 ∧
          res.lambda = 1000.25 ∧ res.ret = 0) :=
  ⟨by norm_num [oneGalaxy],
    zero_iterations (constWeights [1] [5] 0) (oneGalaxy 1000) 7 3 (by norm_num [oneGalaxy])⟩

/-! ## The values that enter the sign test -/

/-- For a pure evaluator the low-end value in the sign test of any iteration is the clamped
objective at the current `lamlo`. -/
theorem testOutlo_pure (ev : Evaluator) (hpure : PureEvaluator ev) (a : Args) (rc0 : ℚ)
    (n : ℕ) :
    testOutlo ev a (iter ev a rc0 n) = clamp (objectiveAt ev a (iter ev a rc0 n).lamlo) := by
  unfold testOutlo
  by_cases hneg : (iter ev a rc0 n).outlo < 0
  · rw [lowEnd_of_neg ev a _ hneg]
    simp only [call_pure ev hpure]
    rfl
  · rw [lowEnd_of_not_neg ev a _ hneg]
    rcases cache_invariant ev hpure a rc0 n with h | h
    · exact absurd h hneg
    · rw [h, clamp_clamp]

/-- For a pure evaluator the midpoint value in the sign test is the objective at `mid`. -/
theorem testOutmid_pure (ev : Evaluator) (hpure : PureEvaluator ev) (a : Args) (s : State) :
    testOutmid ev a s = objectiveAt ev a (midpoint s) := by
  rw [testOutmid_eq, call_pure ev hpure]
  rfl

/-- C11 (stability clamp). With a pure evaluator of objective `F`, in every iteration the
low-end value of the sign test is `F(lamlo)` when `F(lamlo) ≥ 1` and exactly `0.9` when
`F(lamlo) < 1` (negative values included), the midpoint value is `F(mid)` unclamped, and the
branch taken is decided by the sign of the product of these two values minus `lamlo` and
`mid`. -/
theorem stability_clamp (ev : Evaluator) (a : Args) (rc0 : ℚ) (hpure : PureEvaluator ev)
    (n : ℕ) :
    (1 ≤ objectiveAt ev a (iter ev a rc0 n).lamlo →
        testOutlo ev a (iter ev a rc0 n) = objectiveAt ev a (iter ev a rc0 n).lamlo) ∧
      (objectiveAt ev a (iter ev a rc0 n).lamlo < 1 →
        testOutlo ev a (iter ev a rc0 n) = 9 / 10) ∧
      testOutmid ev a (iter ev a rc0 n) = objectiveAt ev a (midpoint (iter ev a rc0 n)) ∧
      (iter ev a rc0 (n + 1)).lamlo =
        (if (testOutlo ev a (iter ev a rc0 n) - (iter ev a rc0 n).lamlo) *
            (testOutmid ev a (iter ev a rc0 n) - midpoint (iter ev a rc0 n)) > 0
          then midpoint (iter ev a rc0 n) else (iter ev a rc0 n).lamlo) ∧
      (iter ev a rc0 (n + 1)).lamhi =
        (if (testOutlo ev a (iter ev a rc0 n) - (iter ev a rc0 n).lamlo) *
            (testOutmid ev a (iter ev a rc0 n) - midpoint (iter ev a rc0 n)) > 0
          then (iter ev a rc0 n).lamhi else midpoint (iter ev a rc0 n)) := by
  have hto := testOutlo_pure ev hpure a rc0 n
  refine ⟨fun h => ?_, fun h => ?_, testOutmid_pure ev hpure a _, ?_, ?_⟩
  · rw [hto, clamp_of_ge _ h]
  · rw [hto, clamp_of_lt _ h]
  · rw [iter_succ, body_lamlo]
  · rw [iter_succ, body_lamhi]

theorem stability_clamp_witness :
    PureEvaluator (constWeights [1] [-3] 0) ∧
      objectiveAt (constWeights [1] [-3] 0) (oneGalaxy (1 / 100))
        (iter (constWeights [1] [-3] 0) (oneGalaxy (1 / 100)) 0 2).lamlo = -3 ∧
      testOutlo (constWeights [1] [-3] 0) (oneGalaxy (1 / 100))
        (iter (constWeights [1] [-3] 0) (oneGalaxy (1 / 100)) 0 2) = 9 / 10 :=
  have hF : ∀ x : ℚ, objectiveAt (constWeights [1] [-3] 0) (oneGalaxy (1 / 100)) x = -3 := by
    intro x
    simp [objectiveAt, evalAt, objective, call, constWeights, oneGalaxy, sumwt, cval,
      List.range_succ]
  ⟨constWeights_pure [1] [-3] 0, hF _,
    (stability_clamp (constWeights [1] [-3] 0) (oneGalaxy (1 / 100)) 0
      (constWeights_pure [1] [-3] 0) 2).2.1 (by rw [hF]; norm_num)⟩

/-- The value cached by a lower-half step is not the unset marker. -/
theorem testOutlo_not_neg (ev : Evaluator) (a : Args) (s : State) :
    ¬ testOutlo ev a s < 0 := by
  unfold testOutlo
  intro h
  have := clamp_ge (lowEnd ev a s).outlo
  linarith

/-- C12 (cache reuse and call count). For every evaluator and every `cpars`: the first
iteration makes exactly two calls, at `lamlo = 0.5` and then at `mid`; an iteration that
follows an upper-half step makes exactly two calls, at `lamlo` and then at `mid`; an iteration
that follows a lower-half step makes exactly one call, at its `mid`, and its sign test uses
the value of `outlo` cached by the previous iteration.  A step is an upper-half step
(`lamlo = mid`) when the sign test holds and a lower-half step (`lamhi = mid`) otherwise. -/
theorem call_count (ev : Evaluator) (a : Args) :
    (∀ rc0 : ℚ,
        (body ev a (initState a rc0)).calls =
          [((initState a rc0).lamlo, call ev a (initState a rc0).lamlo (initState a rc0).bufs),
           (midpoint (initState a rc0), (body ev a (initState a rc0)).bufs)]) ∧
      (∀ s : State, signTest ev a s →
        (body ev a s).lamlo = midpoint s ∧
        (body ev a (body ev a s)).calls =
          (body ev a s).calls ++
            [((body ev a s).lamlo, call ev a (body ev a s).lamlo (body ev a s).bufs),
             (midpoint (body ev a s), (body ev a (body ev a s)).bufs)]) ∧
      ∀ s : State, ¬ signTest ev a s →
        (body ev a s).lamhi = midpoint s ∧
        (body ev a (body ev a s)).calls =
            (body ev a s).calls ++ [(midpoint (body ev a s), (body ev a (body ev a s)).bufs)] ∧
          (body ev a s).outlo = testOutlo ev a s ∧
          testOutlo ev a (body ev a s) = (body ev a s).outlo := by
  refine ⟨fun rc0 => ?_, fun s hs => ?_, fun s hs => ?_⟩
  · rw [body_calls, lowEnd_of_neg ev a _ (by norm_num [initState])]
    rfl
  · have hout : (body ev a s).outlo < 0 := by rw [body_outlo, if_pos hs]; norm_num
    refine ⟨by rw [body_lamlo, if_pos hs], ?_⟩
    rw [body_calls ev a (body ev a s), lowEnd_of_neg ev a _ hout]
    simp
  · have hout : (body ev a s).outlo = testOutlo ev a s := by rw [body_outlo, if_neg hs]
    have hnn : ¬ (body ev a s).outlo < 0 := by rw [hout]; exact testOutlo_not_neg ev a s
    refine ⟨by rw [body_lamhi, if_neg hs], ?_, hout, ?_⟩
    · rw [body_calls ev a (body ev a s), lowEnd_of_not_neg ev a _ hnn]
    · have : testOutlo ev a (body ev a s) = clamp (body ev a s).outlo := by
        unfold testOutlo; rw [lowEnd_of_not_neg ev a _ hnn]
      rw [this, hout]
      unfold testOutlo
      exact clamp_clamp _

/-! ## Root bracketing -/

/-- Under the crossing hypotheses of C13 the sign test holds exactly when `mid` is below the
crossing point, so the bracket keeps the crossing point. -/
theorem crossing_invariant (ev : Evaluator) (hpure : PureEvaluator ev) (a : Args) (rc0 xs : ℚ)
    (hF1 : ∀ x : ℚ, 1 / 2 ≤ x → x ≤ 2000 → 1 ≤ objectiveAt ev a x)
    (hxs : 1 / 2 < xs ∧ xs ≤ 2000)
    (hup : ∀ x : ℚ, 1 / 2 ≤ x → x < xs → x < objectiveAt ev a x)
    (hdown : ∀ x : ℚ, xs ≤ x → x ≤ 2000 → objectiveAt ev a x ≤ x) (n : ℕ) :
    (iter ev a rc0 n).lamlo < xs ∧ xs ≤ (iter ev a rc0 n).lamhi := by
  induction n with
  | zero => rw [iter_zero]; exact ⟨by simpa [initState] using hxs.1, by simpa [initState] using hxs.2⟩
  | succ k ih =>
    obtain ⟨hlo, hhi⟩ := ih
    obtain ⟨h1, h2, h3⟩ := iter_bracket_range ev a rc0 k
    have hm1 : (iter ev a rc0 k).lamlo < midpoint (iter ev a rc0 k) := by
      unfold midpoint; linarith
    have hm2 : midpoint (iter ev a rc0 k) < (iter ev a rc0 k).lamhi := by
      unfold midpoint; linarith
    have hto : testOutlo ev a (iter ev a rc0 k) = objectiveAt ev a (iter ev a rc0 k).lamlo := by
      rw [testOutlo_pure ev hpure a rc0 k]
      exact clamp_of_ge _ (hF1 _ h1 (by linarith))
    have htm := testOutmid_pure ev hpure a (iter ev a rc0 k)
    have hpos := hup _ h1 hlo
    have hsign : signTest ev a (iter ev a rc0 k) ↔ midpoint (iter ev a rc0 k) < xs := by
      unfold signTest
      rw [hto, htm]
      constructor
      · intro h
        by_contra hc
        have hle := hdown _ (not_lt.1 hc) (by linarith)
        have : (objectiveAt ev a (iter ev a rc0 k).lamlo - (iter ev a rc0 k).lamlo) *
            (objectiveAt ev a (midpoint (iter ev a rc0 k)) - midpoint (iter ev a rc0 k)) ≤ 0 :=
          mul_nonpos_of_nonneg_of_nonpos (by linarith) (by linarith)
        linarith
      · intro h
        have := hup _ (by linarith) h
        exact mul_pos (by linarith) (by linarith)
    rw [iter_succ, body_lamlo, body_lamhi]
    by_cases hs : signTest ev a (iter ev a rc0 k)
    · rw [if_pos hs, if_pos hs]; exact ⟨hsign.1 hs, hhi⟩
    · rw [if_neg hs, if_neg hs]; exact ⟨hlo, not_lt.1 (fun h => hs (hsign.2 h))⟩

/-- C13 (root bracketing). For `tol > 0` and a pure evaluator whose objective `F` is at least
`1` on `[0.5, 2000]` and crosses the diagonal at `xs` in `(0.5, 2000]` (`F(x) > x` on
`[0.5, xs)`, `F(x) ≤ x` on `[xs, 2000]`): every iteration has `lamlo < xs ≤ lamhi`, the call
returns, and if `xs ≥ 1 + tol` the stored `lambda` satisfies `|lambda - xs| ≤ tol`. -/
theorem root_bracketing (ev : Evaluator) (a : Args) (rc0 xs : ℚ) (hpure : PureEvaluator ev)
    (htol : 0 < a.tol)
    (hF1 : ∀ x : ℚ, 1 / 2 ≤ x → x ≤ 2000 → 1 ≤ objectiveAt ev a x)
    (hxs : 1 / 2 < xs ∧ xs ≤ 2000)
    (hup : ∀ x : ℚ, 1 / 2 ≤ x → x < xs → x < objectiveAt ev a x)
    (hdown : ∀ x : ℚ, xs ≤ x → x ≤ 2000 → objectiveAt ev a x ≤ x) :
    (∀ n, (iter ev a rc0 n).lamlo < xs ∧ xs ≤ (iter ev a rc0 n).lamhi) ∧
      (∃ n, ∀ fuel, n ≤ fuel → (solver_nfw ev a rc0 fuel).isSome = true) ∧
      (1 + a.tol ≤ xs → ∀ fuel res, solver_nfw ev a rc0 fuel = some res →
        |res.lambda - xs| ≤ a.tol) := by
  refine ⟨crossing_invariant ev hpure a rc0 xs hF1 hxs hup hdown, ?_, ?_⟩
  · obtain ⟨n, -, -, hn⟩ := exists_exit ev a rc0 htol
    exact ⟨n, fun fuel hf => by rw [solver_of_loop ev a rc0 fuel _ (hn fuel hf)]; rfl⟩
  · intro hbig fuel res h
    obtain ⟨hl, -, hlam, -, -⟩ := solver_some ev a rc0 fuel res h
    obtain ⟨hs, -, -, -⟩ := loop_exit_state ev a rc0 fuel _ hl
    obtain ⟨-, hw⟩ := exit_width ev a rc0 fuel _ hl
    obtain ⟨hlo, hhi⟩ := crossing_invariant ev hpure a rc0 xs hF1 hxs hup hdown res.final.iters
    rw [← hs] at hlo hhi
    have hmid : 1 ≤ (res.final.lamlo + res.final.lamhi) / 2 := by linarith
    rw [hlam, (storeLambda_spec res.final).1 hmid, abs_le]
    constructor <;> linarith

theorem root_bracketing_witness :
    PureEvaluator (constWeights [1] [5] 0) ∧ (0 : ℚ) < (oneGalaxy (1 / 100)).tol ∧
      (∀ x : ℚ, objectiveAt (constWeights [1] [5] 0) (oneGalaxy (1 / 100)) x = 5) ∧
      (1 : ℚ) + (oneGalaxy (1 / 100)).tol ≤ 5 ∧
      ((∀ n, (iter (constWeights [1] [5] 0) (oneGalaxy (1 / 100)) 0 n).lamlo < 5 ∧
          5 ≤ (iter (constWeights [1] [5] 0) (oneGalaxy (1 / 100)) 0 n).lamhi) ∧
        (∃ n, ∀ fuel, n ≤ fuel →
          (solver_nfw (constWeights [1] [5] 0) (oneGalaxy (1 / 100)) 0 fuel).isSome = true) ∧
        ((1 : ℚ) + (oneGalaxy (1 / 100)).tol ≤ 5 → ∀ fuel res,
          solver_nfw (constWeights [1] [5] 0) (oneGalaxy (1 / 100)) 0 fuel = some res →
            |res.lambda - 5| ≤ (oneGalaxy (1 / 100)).tol)) :=
  have hF : ∀ x : ℚ, objectiveAt (constWeights [1] [5] 0) (oneGalaxy (1 / 100)) x = 5 := by
    intro x
    simp [objectiveAt, evalAt, objective, call, constWeights, oneGalaxy, sumwt, cval,
      List.range_succ]
  ⟨constWeights_pure [1] [5] 0, by norm_num [oneGalaxy], hF, by norm_num [oneGalaxy],
    root_bracketing (constWeights [1] [5] 0) (oneGalaxy (1 / 100)) 0 5
      (constWeights_pure [1] [5] 0) (by norm_num [oneGalaxy])
      (fun x _ _ => by rw [hF]; norm_num) ⟨by norm_num, by norm_num⟩
      (fun x _ h => by rw [hF]; exact h) (fun x h _ => by rw [hF]; exact h)⟩

/-! ## The low end at the initial bound -/

/-- While `lamlo` is `0.5` the sign test holds exactly when `outmid > mid`. -/
theorem signTest_at_half (ev : Evaluator) (a : Args) (s : State) (h : s.lamlo = 1 / 2) :
    signTest ev a s ↔ testOutmid ev a s > midpoint s := by
  unfold signTest
  have hge : 9 / 10 ≤ testOutlo ev a s := clamp_ge _
  have hpos : 0 < testOutlo ev a s - s.lamlo := by rw [h]; linarith
  constructor
  · intro hs
    by_contra hc
    have : (testOutlo ev a s - s.lamlo) * (testOutmid ev a s - midpoint s) ≤ 0 :=
      mul_nonpos_of_nonneg_of_nonpos (le_of_lt hpos) (by linarith)
    linarith
  · intro hs
    exact mul_pos hpos (by linarith)

/-- The widths `1999.5 / 2^n` decrease with `n`. -/
theorem width_antitone (n m : ℕ) (h : n ≤ m) :
    (3999 / 2 : ℚ) / 2 ^ m ≤ (3999 / 2) / 2 ^ n := by
  have hn : (0 : ℚ) < 2 ^ n := by positivity
  have hp : (2 : ℚ) ^ n ≤ 2 ^ m := pow_le_pow_right₀ (by norm_num) h
  exact div_le_div_of_nonneg_left (by norm_num) hn hp

/-- A width below the `m`-th one belongs to a later iteration. -/
theorem index_lt_of_width_lt (n m : ℕ) (h : (3999 / 2 : ℚ) / 2 ^ n < (3999 / 2) / 2 ^ m) :
    m < n := by
  by_contra hc
  exact absurd (width_antitone n m (not_lt.1 hc)) (not_le.2 h)

/-- The upper end of the bracket in terms of the lower end and the iteration count. -/
theorem iter_lamhi (ev : Evaluator) (a : Args) (rc0 : ℚ) (n : ℕ) :
    (iter ev a rc0 n).lamhi = (iter ev a rc0 n).lamlo + (3999 / 2) / 2 ^ n := by
  have := iter_width ev a rc0 n
  linarith

theorem iter_midpoint (ev : Evaluator) (a : Args) (rc0 : ℚ) (n : ℕ) :
    midpoint (iter ev a rc0 n) = (iter ev a rc0 n).lamlo + (3999 / 2) / 2 ^ (n + 1) := by
  unfold midpoint
  rw [iter_lamhi, pow_succ]
  field_simp
  ring

/-- With a constant objective `c < 1` the low-end value in every sign test is `0.9`. -/
theorem const_testOutlo (ev : Evaluator) (a : Args) (rc0 c : ℚ)
    (hF : ∀ (x : ℚ) (b : Bufs), objective a x (call ev a x b) = c) (hc1 : c < 1) (n : ℕ) :
    testOutlo ev a (iter ev a rc0 n) = 9 / 10 := by
  have key : ∀ s : State, (s.outlo < 0 ∨ s.outlo = 9 / 10) → testOutlo ev a s = 9 / 10 := by
    intro s hs
    unfold testOutlo
    by_cases hneg : s.outlo < 0
    · rw [lowEnd_of_neg ev a s hneg]
      simp only [hF]
      exact clamp_of_lt c hc1
    · rw [lowEnd_of_not_neg ev a s hneg]
      rcases hs with h | h
      · exact absurd h hneg
      · rw [h]; exact clamp_of_lt _ (by norm_num)
  refine key _ (iter_induction ev a rc0 (fun s => s.outlo < 0 ∨ s.outlo = 9 / 10) ?_ ?_ n)
  · left; norm_num [initState]
  · intro s hs
    rw [body_outlo]
    by_cases ht : signTest ev a s
    · rw [if_pos ht]; left; norm_num
    · rw [if_neg ht]; right; exact key s hs

theorem const_testOutmid (ev : Evaluator) (a : Args) (c : ℚ)
    (hF : ∀ (x : ℚ) (b : Bufs), objective a x (call ev a x b) = c) (s : State) :
    testOutmid ev a s = c := by
  rw [testOutmid_eq]; exact hF _ _

/-- With a constant objective `c < 1` the sign test compares `0.9` with `lamlo` and `c` with
`mid`. -/
theorem const_signTest (ev : Evaluator) (a : Args) (rc0 c : ℚ)
    (hF : ∀ (x : ℚ) (b : Bufs), objective a x (call ev a x b) = c) (hc1 : c < 1) (n : ℕ) :
    signTest ev a (iter ev a rc0 n) ↔
      (9 / 10 - (iter ev a rc0 n).lamlo) * (c - midpoint (iter ev a rc0 n)) > 0 := by
  unfold signTest
  rw [const_testOutlo ev a rc0 c hF hc1 n, const_testOutmid ev a c hF]

/-- With a constant objective `c ≤ 8095/8192`, once `lamlo` has left `0.5` the upper end is
at most `8095/8192 = 0.5 + 1999.5/4096`. -/
theorem const_low_or_small (ev : Evaluator) (a : Args) (rc0 c : ℚ)
    (hF : ∀ (x : ℚ) (b : Bufs), objective a x (call ev a x b) = c)
    (hc : c ≤ 8095 / 8192) (n : ℕ) :
    (iter ev a rc0 n).lamlo = 1 / 2 ∨ (iter ev a rc0 n).lamhi ≤ 8095 / 8192 := by
  induction n with
  | zero => left; rfl
  | succ k ih =>
    obtain ⟨-, hlt, -⟩ := iter_bracket_range ev a rc0 k
    rw [iter_succ, body_lamlo, body_lamhi]
    by_cases hs : signTest ev a (iter ev a rc0 k)
    · rw [if_pos hs, if_pos hs]
      rcases ih with h | h
      · right
        have hmid := (signTest_at_half ev a _ h).1 hs
        rw [const_testOutmid ev a c hF, iter_midpoint, h] at hmid
        have hw : (3999 / 2 : ℚ) / 2 ^ (k + 1) < (3999 / 2) / 2 ^ 12 := by
          norm_num at hmid ⊢
          linarith
        have hk : 12 < k + 1 := index_lt_of_width_lt _ _ hw
        have := width_antitone 12 k (by omega)
        rw [iter_lamhi, h]
        norm_num at this ⊢
        linarith
      · right; exact h
    · rw [if_neg hs, if_neg hs]
      rcases ih with h | h
      · left; exact h
      · right; unfold midpoint; linarith

/-- A constant objective `c ≤ 8095/8192` with `0 < tol < 3999/4096` stores the sentinel. -/
theorem const_sentinel (ev : Evaluator) (a : Args) (rc0 c : ℚ)
    (hF : ∀ (x : ℚ) (b : Bufs), objective a x (call ev a x b) = c)
    (hc : c ≤ 8095 / 8192) (hsmall : a.tol < 3999 / 4096) (fuel : ℕ) (res : Result)
    (h : solver_nfw ev a rc0 fuel = some res) : res.lambda = -1 := by
  obtain ⟨hl, -, hlam, -, -⟩ := solver_some ev a rc0 fuel res h
  obtain ⟨hs, -, hstop, -⟩ := loop_exit_state ev a rc0 fuel _ hl
  obtain ⟨-, hlt, -⟩ := iter_bracket_range ev a rc0 res.final.iters
  have hcase := const_low_or_small ev a rc0 c hF hc res.final.iters
  have hhi := iter_lamhi ev a rc0 res.final.iters
  rw [hs, loopCond_iter] at hstop
  rw [← hs] at hlt hcase hhi
  rw [hlam]
  apply (storeLambda_spec res.final).2
  rcases hcase with h1 | h1
  · have hw : (3999 / 2 : ℚ) / 2 ^ res.final.iters < (3999 / 2) / 2 ^ 10 := by
      have := not_lt.1 hstop
      norm_num at this ⊢
      linarith
    have hk : 10 < res.final.iters := index_lt_of_width_lt _ _ hw
    have := width_antitone 11 res.final.iters (by omega)
    rw [hhi, h1]
    norm_num at this ⊢
    linarith
  · linarith

/-- With a constant objective `c ≤ 0.5` the lower end of the bracket never moves. -/
theorem const_half_lamlo (ev : Evaluator) (a : Args) (rc0 c : ℚ)
    (hF : ∀ (x : ℚ) (b : Bufs), objective a x (call ev a x b) = c) (hc : c ≤ 1 / 2) (n : ℕ) :
    (iter ev a rc0 n).lamlo = 1 / 2 := by
  induction n with
  | zero => rfl
  | succ k ih =>
    obtain ⟨-, hlt, -⟩ := iter_bracket_range ev a rc0 k
    have hs : ¬ signTest ev a (iter ev a rc0 k) := by
      rw [signTest_at_half ev a _ ih, const_testOutmid ev a c hF]
      unfold midpoint
      intro h
      linarith
    rw [iter_succ, body_lamlo, if_neg hs]
    exact ih

/-- With a constant objective `c ≤ 0.5` and `3999/4096 ≤ tol < 1` the loop stops after ten
iterations with the bracket `[0.5, 0.5 + 1999.5/1024]` and stores `6047/4096`. -/
theorem const_large_tol (ev : Evaluator) (a : Args) (rc0 c : ℚ)
    (hF : ∀ (x : ℚ) (b : Bufs), objective a x (call ev a x b) = c) (hc : c ≤ 1 / 2)
    (h1 : 3999 / 4096 ≤ a.tol) (h2 : a.tol < 1) (fuel : ℕ) (res : Result)
    (h : solver_nfw ev a rc0 fuel = some res) : res.lambda = 6047 / 4096 := by
  obtain ⟨hl, -, hlam, -, -⟩ := solver_some ev a rc0 fuel res h
  obtain ⟨hs, -, hstop, hrun⟩ := loop_exit_state ev a rc0 fuel _ hl
  have hlo := const_half_lamlo ev a rc0 c hF hc res.final.iters
  have hhi := iter_lamhi ev a rc0 res.final.iters
  rw [hs, loopCond_iter] at hstop
  rw [← hs] at hlo hhi
  have hge : 9 < res.final.iters := by
    apply index_lt_of_width_lt
    have := not_lt.1 hstop
    norm_num at this ⊢
    linarith
  have hle : res.final.iters ≤ 10 := by
    by_contra hc10
    have := (loopCond_iter ev a rc0 10).1 (hrun 10 (by omega))
    norm_num at this
    linarith
  have hk : res.final.iters = 10 := by omega
  rw [hk, hlo] at hhi
  have hmid : (res.final.lamlo + res.final.lamhi) / 2 = 6047 / 4096 := by
    rw [hhi, hlo]; norm_num
  rw [hlam, (storeLambda_spec res.final).1 (by rw [hmid]; norm_num), hmid]

/-- With a constant objective `c` in `(8095/8192, 1)` the lower end stays at `0.5` for the
first eleven iterations. -/
theorem const_high_start (ev : Evaluator) (a : Args) (rc0 c : ℚ)
    (hF : ∀ (x : ℚ) (b : Bufs), objective a x (call ev a x b) = c) (hc1 : c < 1) (n : ℕ)
    (hn : n ≤ 11) : (iter ev a rc0 n).lamlo = 1 / 2 := by
  induction n with
  | zero => rfl
  | succ k ih =>
    have hk := ih (by omega)
    have hs : ¬ signTest ev a (iter ev a rc0 k) := by
      rw [signTest_at_half ev a _ hk, const_testOutmid ev a c hF, iter_midpoint, hk]
      have := width_antitone (k + 1) 11 hn
      norm_num at this ⊢
      linarith
    rw [iter_succ, body_lamlo, if_neg hs]
    exact hk

/-- With a constant objective `c` in `(8095/8192, 1)` the twelfth iteration moves `lamlo` to
`8095/8192`, and from then on every iteration moves `lamlo` up while `lamhi` stays
`6047/4096`. -/
theorem const_high_run (ev : Evaluator) (a : Args) (rc0 c : ℚ)
    (hF : ∀ (x : ℚ) (b : Bufs), objective a x (call ev a x b) = c)
    (hc : 8095 / 8192 < c) (hc1 : c < 1) (m : ℕ) :
    8095 / 8192 ≤ (iter ev a rc0 (12 + m)).lamlo ∧
      (iter ev a rc0 (12 + m)).lamhi = 6047 / 4096 := by
  induction m with
  | zero =>
    have hlo := const_high_start ev a rc0 c hF hc1 11 (le_refl 11)
    have hhi := iter_lamhi ev a rc0 11
    have hmid := iter_midpoint ev a rc0 11
    rw [hlo] at hhi hmid
    have hs : signTest ev a (iter ev a rc0 11) := by
      rw [signTest_at_half ev a _ hlo, const_testOutmid ev a c hF, hmid]
      norm_num
      linarith
    show 8095 / 8192 ≤ (iter ev a rc0 (11 + 1)).lamlo ∧
      (iter ev a rc0 (11 + 1)).lamhi = 6047 / 4096
    rw [iter_succ, body_lamlo, body_lamhi, if_pos hs, if_pos hs, hmid, hhi]
    norm_num
  | succ k ih =>
    obtain ⟨hlo, hhi⟩ := ih
    obtain ⟨-, hlt, -⟩ := iter_bracket_range ev a rc0 (12 + k)
    have hs : signTest ev a (iter ev a rc0 (12 + k)) := by
      rw [const_signTest ev a rc0 c hF hc1]
      apply mul_pos_of_neg_of_neg
      · linarith
      · unfold midpoint; rw [hhi]; linarith
    show 8095 / 8192 ≤ (iter ev a rc0 (12 + k + 1)).lamlo ∧
      (iter ev a rc0 (12 + k + 1)).lamhi = 6047 / 4096
    rw [iter_succ, body_lamlo, body_lamhi, if_pos hs, if_pos hs]
    refine ⟨?_, hhi⟩
    unfold midpoint
    linarith

/-- A constant objective `c` in `(8095/8192, 1)` with `c + tol < 1` stores a value that is
at least `1`. -/
theorem const_high_lambda (ev : Evaluator) (a : Args) (rc0 c : ℚ)
    (hF : ∀ (x : ℚ) (b : Bufs), objective a x (call ev a x b) = c)
    (hc : 8095 / 8192 < c) (hsum : c + a.tol < 1) (htol : 0 < a.tol) (fuel : ℕ)
    (res : Result) (h : solver_nfw ev a rc0 fuel = some res) : 1 ≤ res.lambda := by
  obtain ⟨hl, -, hlam, -, -⟩ := solver_some ev a rc0 fuel res h
  obtain ⟨hs, -, hstop, -⟩ := loop_exit_state ev a rc0 fuel _ hl
  rw [hs, loopCond_iter] at hstop
  have hge : 11 < res.final.iters := by
    apply index_lt_of_width_lt
    have := not_lt.1 hstop
    norm_num at this ⊢
    linarith
  obtain ⟨m, hm⟩ : ∃ m, res.final.iters = 12 + m := ⟨res.final.iters - 12, by omega⟩
  obtain ⟨hlo, hhi⟩ := const_high_run ev a rc0 c hF hc (by linarith) m
  rw [← hm, ← hs] at hlo hhi
  have hmid : 1 ≤ (res.final.lamlo + res.final.lamhi) / 2 := by rw [hhi]; linarith
  rw [hlam, (storeLambda_spec res.final).1 hmid]
  exact hmid

/-- C14 (constant objective below the floor), amended. For every constant `c ≥ 0` and every
`tol > 0` with `c + tol < 1`, if the objective equals `c` at every trial value then every call
that returns stores the sentinel `-1` exactly when `c ≤ 8095/8192 = 0.5 + 1999.5/4096` and
`tol < 3999/4096 = 1999.5/2048`; for `tol ≥ 3999/4096` it stores `6047/4096`, and for
`c > 8095/8192` it stores a value that is at least `1`. -/
theorem sub_floor_constant (ev : Evaluator) (a : Args) (rc0 c : ℚ) (fuel : ℕ) (res : Result)
    (hF : ∀ (x : ℚ) (b : Bufs), objective a x (call ev a x b) = c)
    (hc0 : 0 ≤ c) (htol : 0 < a.tol) (hsum : c + a.tol < 1)
    (h : solver_nfw ev a rc0 fuel = some res) :
    (res.lambda = -1 ↔ (c ≤ 8095 / 8192 ∧ a.tol < 3999 / 4096)) ∧
      (3999 / 4096 ≤ a.tol → res.lambda = 6047 / 4096) ∧
      (8095 / 8192 < c → 1 ≤ res.lambda) := by
  have hbig : 3999 / 4096 ≤ a.tol → res.lambda = 6047 / 4096 := fun ht =>
    const_large_tol ev a rc0 c hF (by linarith) ht (by linarith) fuel res h
  have hhigh : 8095 / 8192 < c → 1 ≤ res.lambda := fun hc =>
    const_high_lambda ev a rc0 c hF hc hsum htol fuel res h
  refine ⟨⟨fun hm1 => ?_, fun hcond => ?_⟩, hbig, hhigh⟩
  · constructor
    · by_contra hc
      have := hhigh (not_le.1 hc)
      rw [hm1] at this
      norm_num at this
    · by_contra ht
      have := hbig (not_lt.1 ht)
      rw [hm1] at this
      norm_num at this
  · exact const_sentinel ev a rc0 c hF hcond.1 hcond.2 fuel res h

theorem sub_floor_constant_witness :
    (∀ (x : ℚ) (b : Bufs),
        objective (oneGalaxy (1 / 100)) x
          (call (constWeights [1] [1 / 2] 0) (oneGalaxy (1 / 100)) x b) = 1 / 2) ∧
      (0 : ℚ) ≤ 1 / 2 ∧ (0 : ℚ) < (oneGalaxy (1 / 100)).tol ∧
      (1 / 2 : ℚ) + (oneGalaxy (1 / 100)).tol < 1 ∧
      ∃ res,
        solver_nfw (constWeights [1] [1 / 2] 0) (oneGalaxy (1 / 100)) 0 17 = some res ∧
          res.lambda = -1 := by
  have hF : ∀ (x : ℚ) (b : Bufs),
      objective (oneGalaxy (1 / 100)) x
        (call (constWeights [1] [1 / 2] 0) (oneGalaxy (1 / 100)) x b) = 1 / 2 := by
    intro x b
    simp [objective, call, constWeights, oneGalaxy, sumwt, cval, List.range_succ]
  obtain ⟨res, h⟩ := Option.isSome_iff_exists.1
    (show (solver_nfw (constWeights [1] [1 / 2] 0) (oneGalaxy (1 / 100)) 0 17).isSome = true by
      decide!)
  exact ⟨hF, by norm_num, by norm_num [oneGalaxy], by norm_num [oneGalaxy], res, h,
    (sub_floor_constant (constWeights [1] [1 / 2] 0) (oneGalaxy (1 / 100)) 0 (1 / 2) 17 res hF
      (by norm_num) (by norm_num [oneGalaxy]) (by norm_num [oneGalaxy]) h).1.2
      ⟨by norm_num, by norm_num [oneGalaxy]⟩⟩

/-- C14 as stated fails at `c = 0`, `tol = 0.98`: the objective is `0` at every trial value
and `c + tol < 1`, but the loop stops after ten iterations with the bracket
`[0.5, 0.5 + 1999.5/1024]` and the call stores `6047/4096`, not the sentinel. -/
theorem sub_floor_counterexample :
    (∀ (x : ℚ) (b : Bufs),
        objective (oneGalaxy (49 / 50)) x
          (call (constWeights [1] [0] 0) (oneGalaxy (49 / 50)) x b) = 0) ∧
      (0 : ℚ) + (oneGalaxy (49 / 50)).tol < 1 ∧ (0 : ℚ) < (oneGalaxy (49 / 50)).tol ∧
      ∃ res, solver_nfw (constWeights [1] [0] 0) (oneGalaxy (49 / 50)) 0 10 = some res ∧
        res.final.iters = 10 ∧ res.lambda = 6047 / 4096 ∧ res.lambda ≠ -1 := by
  have hF : ∀ (x : ℚ) (b : Bufs),
      objective (oneGalaxy (49 / 50)) x
        (call (constWeights [1] [0] 0) (oneGalaxy (49 / 50)) x b) = 0 := by
    intro x b
    simp [objective, call, constWeights, oneGalaxy, sumwt, cval, List.range_succ]
  have htol : (0 : ℚ) < (oneGalaxy (49 / 50)).tol := by norm_num [oneGalaxy]
  obtain ⟨n, hstop, hrun, hn⟩ :=
    exists_exit (constWeights [1] [0] 0) (oneGalaxy (49 / 50)) 0 htol
  have hle : n ≤ 10 := by
    by_contra hc
    have := (loopCond_iter _ _ _ 10).1 (hrun 10 (by omega))
    norm_num [oneGalaxy] at this
  have hge : 9 < n := by
    apply index_lt_of_width_lt
    rw [loopCond_iter] at hstop
    have := not_lt.1 hstop
    norm_num [oneGalaxy] at this ⊢
    linarith
  have hsol := solver_of_loop _ _ _ 10 _ (hn 10 hle)
  have hlam := const_large_tol (constWeights [1] [0] 0) (oneGalaxy (49 / 50)) 0 0 hF
    (by norm_num) (by norm_num [oneGalaxy]) (by norm_num [oneGalaxy]) 10 _ hsol
  refine ⟨hF, by norm_num [oneGalaxy], htol, _, hsol, ?_, hlam, ?_⟩
  · show (iter (constWeights [1] [0] 0) (oneGalaxy (49 / 50)) 0 n).iters = 10
    rw [iter_iters]; omega
  · rw [hlam]; norm_num

/-! ## Double arithmetic: runs on which exact-arithmetic facts fail -/

/-- C7 as stated fails in double arithmetic at `ngal = 0`, `tol = 2^-60`: after 65
iterations (66 evaluator calls) `lamhi` has been rounded down onto `lamlo = 0.5`, the final call was made at
`mid = 0.5`, the final bracket has width `0` and its midpoint, the unfloored `lambda`, is
`0.5` as well: the final call was made at `lambda` itself. -/
theorem output_buffers_counterexample :
    (solver_nfwD (constWeightsD [] [] (Dbl.fin 0)) (noGalaxyD (1 / 2 ^ 60)) (Dbl.fin 0) 65).map
        (fun res => (res.final.iters, res.final.calls.length,
          res.final.calls.getLast?.map Prod.fst, res.final.lamlo, res.final.lamhi,
          Dbl.half (Dbl.add res.final.lamlo res.final.lamhi)))
      = some (65, 66, some (Dbl.fin (1 / 2)), Dbl.fin (1 / 2), Dbl.fin (1 / 2),
          Dbl.fin (1 / 2)) := by
  decide!

/-- In double arithmetic a call with `tol = 0` can return: with `ngal = 0` the upper end is
rounded onto `lamlo = 0.5`, the width becomes `0` and `-1` is stored after 66 calls. -/
theorem zero_tol_returns_in_doubles :
    (solver_nfwD (constWeightsD [] [] (Dbl.fin 0)) (noGalaxyD 0) (Dbl.fin 0) 65).map
        (fun res => (res.final.calls.length, res.lambda))
      = some (66, Dbl.fin (-1)) := by
  decide!

end SolverNfw
